import Mathlib

/-!
Verification development for the `gi_tcg` rules engine
(`open_spiel/games/gi_tcg/gi_tcg.cc`): a three-player trick-taking card
game with a bidding phase that elects a "landlord" (dizhu).

The engine's state machine (`GITCGState::ApplyDealAction`,
`ApplyBiddingAction`, `ApplyPlayAction`, `AfterPlayHand`, `ScoreUp`,
the legal-action generators and `DoApplyAction`) is embedded shallowly
below.  C++ `int` values are modelled as `Int`; the per-rank count
arrays become `List Int`; a fatal error (`SpielFatalError` /
`SPIEL_CHECK_*`) is modelled by an `Option` result of `none`.

The game's header and card-utility translation unit (constants, the
`Trick` class body, `CardToRank`, `ActionToHand`,
`SearchForLegalActions`) are not part of the sources; definitions for
them are modelled from the specification and are marked
`Modelled from the spec:` in their doc comments.
-/

namespace GITCG

/-- Modelled from the spec: the game has exactly 3 seats. -/
def kNumPlayers : Int := 3

/-- Modelled from the spec: ranks 0..12 are the suited ranks, ranks 13
and 14 are the two jokers (`kNumRanks - 2` suited ranks appear in
`FormatHand`), so 15 ranks in total. -/
def kNumRanks : Nat := 15

/-- Modelled from the spec: a full deck with one copy of each card:
13 suited ranks in 4 suits plus the two jokers, 54 cards. -/
def kNumCards : Nat := 54

/-- Modelled from the spec: the fixed-size leftover block set aside for
the landlord holds 3 cards (three players with equal 17-card hands). -/
def kNumCardsLeftOver : Nat := 3

/-- Modelled from the spec: `MaxBid` is 3, so bids range over 1..3. -/
def kNumBids : Int := 3

/-- Modelled from the spec: the first action-id band holds the face-up
slot choices, one per chronological deal position, hence
`kNumCards - kNumCardsLeftOver = 51` ids starting at 0. -/
def kDealingActionBase : Int := 51

/-- Modelled from the spec: card-deal ids occupy the band after the
face-up slot choices, then the `Pass` sentinel follows, so
`kBiddingActionBase = kPass = 51 + 54 = 105`; `Bid v` is id `105 + v`. -/
def kBiddingActionBase : Int := 105

/-- The `Pass` sentinel (equal to `kBiddingActionBase`; bids are
strictly above it, as used by `ActionToString`). -/
def kPass : Int := 105

/-- Modelled from the spec: first id of the play-combination bands,
right after the bid ids: `105 + 1 + 3 = 109`. -/
def kPlayActionBase : Int := 109

/-- Modelled from the spec: sentinel for an invalid/unset player. -/
def kInvalidPlayer : Int := -3

/-- Modelled from the spec: sentinel for an invalid/unset action
(the `winning_action` of a trick nobody has played into). -/
def kInvalidAction : Int := -1

/-- Modelled from the spec: the card codec. Card ids 0..51 decompose
into rank `id % 13` (suit is the quotient); cards 52 and 53 are the
black-white and colorful jokers with the two top ranks 13 and 14. -/
def cardToRank (c : Int) : Int :=
  if c = 52 then 13 else if c = 53 then 14 else c % 13

/-- `(List.range n)` with the indices cast to `Int`. -/
def rng (n : Nat) : List Int := (List.range n).map (fun (i : Nat) => (i : Int))

/-- Read entry `i` of a count array; a negative or out-of-range index
reads 0 (such reads only arise outside the engine's invariants). -/
def getI (l : List Int) (i : Int) : Int :=
  if 0 ≤ i then l.getD i.toNat 0 else 0

/-- Write entry `i` of a count array (no-op out of range). -/
def setI (l : List Int) (i : Int) (v : Int) : List Int :=
  if 0 ≤ i then l.set i.toNat v else l

/-- Update entry `i` of a count array by `f`. -/
def updI (l : List Int) (i : Int) (f : Int → Int) : List Int :=
  setI l i (f (getI l i))

/-- Read player `p`'s row of a per-player table. -/
def getH (h : List (List Int)) (p : Int) : List Int :=
  if 0 ≤ p then h.getD p.toNat [] else []

/-- Replace player `p`'s row of a per-player table. -/
def setH (h : List (List Int)) (p : Int) (v : List Int) : List (List Int) :=
  if 0 ≤ p then h.set p.toNat v else h

/-- Update player `p`'s row of a per-player table by `f`. -/
def updH (h : List (List Int)) (p : Int) (f : List Int → List Int) :
    List (List Int) :=
  setH h p (f (getH h p))

/-- Sum of a count array. -/
def sumI : List Int → Int
  | [] => 0
  | x :: xs => x + sumI xs

/-- The four phases of `GITCGState` (`Phase` enum). -/
inductive Phase where
  | deal
  | auction
  | play
  | gameOver
deriving DecidableEq

/-- A trick record: the two-argument constructor
`Trick::Trick(Player leader, int action)` in the sources sets
`winning_action_ = action`, `leader_ = leader`,
`winning_player_ = leader`. -/
structure Trick where
  leader : Int
  winningAction : Int
  winningPlayer : Int
deriving DecidableEq

/-- Build a trick as the two-argument C++ constructor does. -/
def Trick.mkLA (leader action : Int) : Trick :=
  ⟨leader, action, leader⟩

/-- Modelled from the spec: the zero-argument `Trick()` constructor
leaves every field at its invalid sentinel, matching the sentinel
convention the sources use (`Trick(dizhu_, kInvalidAction)` at auction
finalization).  A zero-argument constructor is a fixed value and cannot
depend on the surrounding state. -/
def defaultTrick : Trick :=
  ⟨kInvalidPlayer, kInvalidAction, kInvalidPlayer⟩

/-- Modelled from the spec: `Trick::Play(player, action)` overwrites
only the trailing `winning_player_`/`winning_action_` fields ("Tricks
are immutable once closed except for their trailing
winning_player/winning_action fields"). -/
def Trick.play (t : Trick) (p a : Int) : Trick :=
  { t with winningPlayer := p, winningAction := a }

/-- The state of `GITCGState`, restricted to the members the rules
engine reads or writes.  `history` records `(player, action)` pairs,
appended by the framework after each applied action. -/
structure GameState where
  phase : Phase
  currentPlayer : Int
  dealerDeck : List Int
  holds : List (List Int)
  playedDeck : List Int
  cardsLeftOver : List Int
  cardFaceUpPosition : Int
  cardRankFaceUp : Int
  firstPlayer : Int
  dizhu : Int
  winningBid : Int
  numPasses : Nat
  numPlayed : Nat
  tricks : List Trick
  tricksPlayed : Nat
  newTrickBegin : Bool
  bombsPlayed : Nat
  playersHandsPlayed : List Int
  finalWinner : Int
  returns : List Int
  history : List (Int × Int)

/-- The freshly constructed state: full dealer deck (`absl::c_fill
(dealer_deck_, 1)`), empty hands, zero returns, all sentinels unset. -/
def initState : GameState where
  phase := .deal
  currentPlayer := kInvalidPlayer
  dealerDeck := List.replicate 54 1
  holds := List.replicate 3 (List.replicate 15 0)
  playedDeck := List.replicate 15 0
  cardsLeftOver := []
  cardFaceUpPosition := -1
  cardRankFaceUp := -1
  firstPlayer := kInvalidPlayer
  dizhu := kInvalidPlayer
  winningBid := 0
  numPasses := 0
  numPlayed := 0
  tricks := []
  tricksPlayed := 0
  newTrickBegin := false
  bombsPlayed := 0
  playersHandsPlayed := List.replicate 3 0
  finalWinner := kInvalidPlayer
  returns := List.replicate 3 0
  history := []

/-- `CurrentTrick()`: the trick at index `trick_played_`. -/
def currentTrick (s : GameState) : Trick :=
  s.tricks.getD s.tricksPlayed defaultTrick

/-! ### The play-combination codec and enumerator

Modelled from the spec: the combination categories are
`{Single, Pair, Triple, Straight(length), Bomb, Rocket}` with the
action-id space laid out in contiguous bands in that order after
`kPlayActionBase`.  Per the spec's own open question, the enumeration
of "airplane" attachment sets is left unconfirmed by the source
material, so the airplane band is not modelled; no claim below depends
on it.  Straights are runs of singles of length at least 5 over the
suited ranks 0..11 (2s and jokers never chain). -/

/-- Modelled from the spec: first id of the pair band (after 15 solos). -/
def kPairActionBase : Int := 124

/-- Modelled from the spec: first id of the triple band (after 13 pairs). -/
def kTrioActionBase : Int := 137

/-- Modelled from the spec: first id of the straight band (after 13 triples). -/
def kChainActionBase : Int := 150

/-- Modelled from the spec: first id of the bomb band (after 36 straights). -/
def kBombActionBase : Int := 186

/-- Modelled from the spec: the single rocket id, last of the play bands. -/
def kRocketActionBase : Int := 199

/-- The straight band's id table: entry `i` is `(start, length)` for
play action `kChainActionBase + i`, lengths 5..12 in order, starts
ascending, runs confined to ranks 0..11. -/
def chainTable : List (Int × Int) :=
  (List.range 8).flatMap (fun d =>
    (List.range (8 - d)).map (fun (st : Nat) => ((st : Int), (d : Int) + 5)))

/-- A classified play combination (category tag plus primary rank). -/
inductive Comb where
  | solo (r : Int)
  | pair (r : Int)
  | trio (r : Int)
  | chain (st len : Int)
  | bomb (r : Int)
  | rocket
deriving DecidableEq

/-- Modelled from the spec: decode a play action-id into its
combination by an O(1) range check plus table lookup; ids outside the
play bands (in particular `kInvalidAction`) decode to `none`. -/
def decodeAction (a : Int) : Option Comb :=
  if kPlayActionBase ≤ a ∧ a < kPairActionBase then
    some (.solo (a - kPlayActionBase))
  else if kPairActionBase ≤ a ∧ a < kTrioActionBase then
    some (.pair (a - kPairActionBase))
  else if kTrioActionBase ≤ a ∧ a < kChainActionBase then
    some (.trio (a - kTrioActionBase))
  else if kChainActionBase ≤ a ∧ a < kBombActionBase then
    let p := chainTable.getD (a - kChainActionBase).toNat (0, 0)
    some (.chain p.1 p.2)
  else if kBombActionBase ≤ a ∧ a < kRocketActionBase then
    some (.bomb (a - kBombActionBase))
  else if a = kRocketActionBase then
    some .rocket
  else none

/-- The per-rank count vector of a combination. -/
def combToHand : Comb → List Int
  | .solo r => (rng 15).map (fun i => if i = r then 1 else 0)
  | .pair r => (rng 15).map (fun i => if i = r then 2 else 0)
  | .trio r => (rng 15).map (fun i => if i = r then 3 else 0)
  | .chain st len => (rng 15).map (fun i => if st ≤ i ∧ i < st + len then 1 else 0)
  | .bomb r => (rng 15).map (fun i => if i = r then 4 else 0)
  | .rocket => (rng 15).map (fun i => if i = 13 ∨ i = 14 then 1 else 0)

/-- Modelled from the spec: `ActionToHand` maps a play action-id to the
per-rank count vector of the cards it uses. -/
def actionToHand (a : Int) : List Int :=
  match decodeAction a with
  | some c => combToHand c
  | none => List.replicate 15 0

/-- Modelled from the spec: the beats-relation.  A candidate beats the
current winner iff (a) it is a Rocket and the winner is not, (b) it is
a Bomb and the winner is neither Bomb nor Rocket, or (c) same category,
same length for straights, strictly greater primary rank.  No other
pairing is comparable. -/
def beats (cand cur : Comb) : Bool :=
  match cand, cur with
  | .rocket, .rocket => false
  | .rocket, _ => true
  | .bomb _, .rocket => false
  | .bomb r, .bomb r2 => decide (r2 < r)
  | .bomb _, _ => true
  | .solo r, .solo r2 => decide (r2 < r)
  | .pair r, .pair r2 => decide (r2 < r)
  | .trio r, .trio r2 => decide (r2 < r)
  | .chain st len, .chain st2 len2 => decide (len = len2) && decide (st2 < st)
  | _, _ => false

/-- All solo actions a hand supports. -/
def soloActions (hand : List Int) : List Int :=
  (rng 15).filterMap (fun r =>
    if 1 ≤ getI hand r then some (kPlayActionBase + r) else none)

/-- All pair actions a hand supports (suited ranks only). -/
def pairActions (hand : List Int) : List Int :=
  (rng 13).filterMap (fun r =>
    if 2 ≤ getI hand r then some (kPairActionBase + r) else none)

/-- All triple actions a hand supports. -/
def trioActions (hand : List Int) : List Int :=
  (rng 13).filterMap (fun r =>
    if 3 ≤ getI hand r then some (kTrioActionBase + r) else none)

/-- Whether a hand supports the straight run starting at `st` of
length `len` (one card of every rank of the run). -/
def chainOk (hand : List Int) (st len : Int) : Prop :=
  ∀ j ∈ List.range len.toNat, 1 ≤ getI hand (st + (j : Int))

instance (hand : List Int) (st len : Int) : Decidable (chainOk hand st len) :=
  List.decidableBAll _ _

/-- All straight actions a hand supports. -/
def chainActions (hand : List Int) : List Int :=
  (rng 36).filterMap (fun i =>
    if chainOk hand (chainTable.getD i.toNat (0, 0)).1 (chainTable.getD i.toNat (0, 0)).2 then
      some (kChainActionBase + i)
    else none)

/-- All bomb actions a hand supports. -/
def bombActions (hand : List Int) : List Int :=
  (rng 13).filterMap (fun r =>
    if 4 ≤ getI hand r then some (kBombActionBase + r) else none)

/-- The rocket action when the hand holds both jokers. -/
def rocketActions (hand : List Int) : List Int :=
  if 1 ≤ getI hand 13 ∧ 1 ≤ getI hand 14 then [kRocketActionBase] else []

/-- Modelled from the spec: `SearchForLegalActions` exhaustively
generates from the acting player's hand every combination of every
category, filtered by the beats-relation against the current winning
play; when leading (`prev` is `kInvalidAction`) every supported
combination is acceptable. -/
def searchForLegalActions (hand : List Int) (prev : Int) : List Int :=
  let all := soloActions hand ++ pairActions hand ++ trioActions hand ++
    chainActions hand ++ bombActions hand ++ rocketActions hand
  match decodeAction prev with
  | none => all
  | some c => all.filter (fun a =>
      match decodeAction a with
      | some c2 => beats c2 c
      | none => false)

/-- Ordered insertion, the building block of the ascending sort applied
to the play-phase legal-action list (`absl::c_sort`). -/
def insOrd (a : Int) : List Int → List Int
  | [] => [a]
  | b :: bs => if a ≤ b then a :: b :: bs else b :: insOrd a bs

/-- Ascending insertion sort (models `absl::c_sort`). -/
def sortOrd (l : List Int) : List Int := l.foldr insOrd []

/-! ### Legal-action generators -/

/-- `GITCGState::DealLegalActions`: before the face-up slot is chosen,
the full slot-index range; after, every card id still in the pool,
shifted into the dealing band. -/
def dealLegalActions (s : GameState) : List Int :=
  if s.cardFaceUpPosition = -1 then rng 51
  else (rng 54).filterMap (fun c =>
    if getI s.dealerDeck c ≠ 0 then some (c + kDealingActionBase) else none)

/-- `GITCGState::BiddingLegalActions`: `kPass`, then one id per bid
value from `winning_bid_ + 1` up to `kNumBids`. -/
def biddingLegalActions (s : GameState) : List Int :=
  kPass :: (List.range (kNumBids - s.winningBid).toNat).map
    (fun (j : Nat) => kBiddingActionBase + s.winningBid + 1 + (j : Int))

/-- `GITCGState::PlayLegalActions`: the leader of a trick must play and
cannot pass; otherwise `kPass` is offered; the search results against
the current trick's winning action are appended and sorted. -/
def playLegalActions (s : GameState) : List Int :=
  sortOrd ((if s.newTrickBegin then [] else [kPass]) ++
    searchForLegalActions (getH s.holds s.currentPlayer) (currentTrick s).winningAction)

/-- `GITCGState::LegalActions`: dispatch on the phase; empty once the
game is over. -/
def legalActions (s : GameState) : List Int :=
  match s.phase with
  | .deal => dealLegalActions s
  | .auction => biddingLegalActions s
  | .play => playLegalActions s
  | .gameOver => []

/-! ### State transitions -/

/-- `GITCGState::ApplyDealAction`.  The first chance action records the
face-up slot; every later one deals one card to player
`(history.size() - 1) % 3`, records `first_player` when the face-up
slot's round is reached, and on the 51st dealt card transitions to the
auction (checking `0 ≤ current_player_ ≤ num_players_`, a
`SPIEL_CHECK` whose failure is fatal, hence `none`) and moves the rank
of every still-undealt card into the leftover block. -/
def applyDealAction (s : GameState) (a : Int) : Option GameState :=
  if s.cardFaceUpPosition = -1 then
    some { s with cardFaceUpPosition := a }
  else
    let dealingRound : Int := (s.history.length : Int) - 1
    let s1 := if dealingRound = (s.history.headD (0, 0)).2 then
        { s with firstPlayer := dealingRound % 3,
                 cardRankFaceUp := cardToRank (a - kDealingActionBase) }
      else s
    let s2 := { s1 with
      holds := updH s1.holds (dealingRound % 3)
        (fun h => updI h (cardToRank (a - kDealingActionBase)) (fun x => x + 1)),
      dealerDeck := updI s1.dealerDeck (a - kDealingActionBase) (fun x => x - 1) }
    if (s.history.length : Int) = ((kNumCards : Int) - (kNumCardsLeftOver : Int)) then
      if 0 ≤ s2.firstPlayer ∧ s2.firstPlayer ≤ kNumPlayers then
        some { s2 with
                 phase := .auction,
                 currentPlayer := s2.firstPlayer,
                 cardsLeftOver := (rng 54).filterMap (fun c =>
                   if getI s2.dealerDeck c ≠ 0 then some (cardToRank c) else none) }
      else none
    else some s2

/-- The loop `for i: holds_[dizhu_][cards_left_over_[i]]++` that hands
the leftover block to the landlord. -/
def addLeftovers (holds : List (List Int)) (d : Int) : List Int → List (List Int)
  | [] => holds
  | r :: rs => addLeftovers (updH holds d (fun h => updI h r (fun x => x + 1))) d rs

/-- `GITCGState::ApplyBiddingAction`.  A pass increments
`num_passes_`, a bid resets it, installs the bidder as `dizhu_` and
overwrites `winning_bid_`; three passes end the game, two passes after
a bid (or a maximal bid) finalize the auction: transfer the leftover
block, open trick 0 led by the landlord, hand the turn to the
landlord; otherwise the turn advances round-robin. -/
def applyBiddingAction (s0 : GameState) (a : Int) : GameState :=
  let np := if a = kPass then s0.numPasses + 1 else 0
  let s1 := { s0 with numPasses := np }
  let s2 := if a = kPass then s1
    else { s1 with dizhu := s1.currentPlayer, winningBid := a - kBiddingActionBase }
  let s3 := if a = kPass ∧ (np : Int) = kNumPlayers then
      { s2 with phase := Phase.gameOver }
    else s2
  if (a = kPass ∧ (np : Int) = kNumPlayers - 1 ∧ 0 < s2.winningBid) ∨
      (¬a = kPass ∧ s2.winningBid = kNumBids) then
    { s3 with
        holds := addLeftovers s3.holds s3.dizhu s3.cardsLeftOver,
        phase := Phase.play,
        currentPlayer := s3.dizhu,
        newTrickBegin := true,
        tricks := s3.tricks ++ [Trick.mkLA s3.dizhu kInvalidAction],
        numPasses := 0 }
  else
    { s3 with currentPlayer := (s3.currentPlayer + 1) % 3 }

/-- `GITCGState::AfterPlayHand`: for every rank, check
`SPIEL_CHECK_GE(holds_[player][rank], used_hand[rank])` (failure is
fatal, hence `none`; the C++ loop aborts mid-iteration, which an
`Option` result cannot distinguish), subtract the used cards from the
hand, add them to the played-card ledger, and report whether the hand
is now empty. -/
def afterPlayHand (holds : List (List Int)) (played : List Int) (p a : Int) :
    Option (List (List Int) × List Int × Bool) :=
  let used := actionToHand a
  let hand := getH holds p
  if (List.range 15).all (fun r => decide (getI used (r : Int) ≤ getI hand (r : Int))) then
    let newHand := List.zipWith (fun x y => x - y) hand used
    some (setH holds p newHand,
      List.zipWith (fun x y => x + y) played used,
      newHand.all (fun x => x == 0))
  else none

/-- The doubling loop of `ScoreUp` (`for i < k: paying *= 2`). -/
def doubleN (x : Int) : Nat → Int
  | 0 => x
  | n + 1 => doubleN (x * 2) n

/-- The spring flag computed by `ScoreUp`: the dizhu played exactly one
hand, or neither farmer ever played a hand. -/
def isSpring (hp : List Int) (d : Int) : Bool :=
  decide (getI hp d = 1) ||
    (decide (getI hp ((d + 1) % 3) = 0) && decide (getI hp ((d + 2) % 3) = 0))

/-- `GITCGState::ScoreUp`: nothing to do when no one ever bid;
otherwise double the winning bid once per bomb and once more for
spring, and pay the landlord twice the per-farmer stake, with the sign
decided by whether the landlord is the final winner.  The C++ returns
are `double`s; every value assigned is integral, so they are modelled
as `Int`. -/
def scoreUp (s : GameState) : GameState :=
  if s.dizhu = kInvalidPlayer then s
  else
    let spring := isSpring s.playersHandsPlayed s.dizhu
    let paying := doubleN s.winningBid ((if spring then 1 else 0) + s.bombsPlayed)
    let dizhuSign : Int := if s.finalWinner = s.dizhu then 1 else -1
    { s with
        returns :=
          setI (setI (setI s.returns s.dizhu (dizhuSign * 2 * paying))
            ((s.dizhu + 1) % 3) (-dizhuSign * paying))
            ((s.dizhu + 2) % 3) (-dizhuSign * paying) }

/-- `GITCGState::ApplyPlayAction`.  A pass either closes the trick
(winner takes the turn and leads a fresh trick) or passes the turn on;
a real play updates the bomb counter, the player's play counter, the
current trick's winning fields, and the hands, ending the game at once
if the hand has been emptied. -/
def applyPlayAction (s0 : GameState) (a : Int) : Option GameState :=
  let s1 := { s0 with numPlayed := s0.numPlayed + 1,
                      numPasses := if a = kPass then s0.numPasses + 1 else 0 }
  if a = kPass then
    if (s1.numPasses : Int) = kNumPlayers - 1 then
      some { s1 with
               currentPlayer := (currentTrick s1).winningPlayer,
               tricksPlayed := s1.tricksPlayed + 1,
               numPasses := 0,
               tricks := s1.tricks ++ [defaultTrick],
               newTrickBegin := true }
    else
      some { s1 with currentPlayer := (s1.currentPlayer + 1) % 3 }
  else
    let s2 := { s1 with
      bombsPlayed := if kBombActionBase ≤ a then s1.bombsPlayed + 1 else s1.bombsPlayed,
      playersHandsPlayed := updI s1.playersHandsPlayed s1.currentPlayer (fun x => x + 1),
      newTrickBegin := false,
      tricks := s1.tricks.set s1.tricksPlayed ((currentTrick s1).play s1.currentPlayer a) }
    match afterPlayHand s2.holds s2.playedDeck s2.currentPlayer a with
    | none => none
    | some (h2, pd2, allPlayed) =>
      let s3 := { s2 with holds := h2, playedDeck := pd2 }
      if allPlayed then
        some { scoreUp { s3 with finalWinner := s3.currentPlayer } with
               phase := Phase.gameOver }
      else
        some { s3 with currentPlayer := (s3.currentPlayer + 1) % 3 }

/-- `GITCGState::DoApplyAction`: dispatch on the phase; acting in a
terminal state is fatal (`SpielFatalError`), hence `none`. -/
def doApplyAction (s : GameState) (a : Int) : Option GameState :=
  match s.phase with
  | .deal => applyDealAction s a
  | .auction => some (applyBiddingAction s a)
  | .play => applyPlayAction s a
  | .gameOver => none

/-- `GITCGState::CurrentPlayer`: the chance player during the deal, the
terminal sentinel once over, otherwise `current_player_`. -/
def currentPlayerId (s : GameState) : Int :=
  match s.phase with
  | .deal => -1
  | .gameOver => -4
  | _ => s.currentPlayer

/-- `State::ApplyAction` as the host framework drives it: run
`DoApplyAction`, then append `(player, action)` to the history. -/
def applyAction (s : GameState) (a : Int) : Option GameState :=
  (doApplyAction s a).map (fun t =>
    { t with history := s.history ++ [(currentPlayerId s, a)] })

/-- One driver step restricted to the legal-action contract: the host
only ever applies actions drawn from `LegalActions()`. -/
def stepLegal (s : GameState) (a : Int) : Option GameState :=
  if a ∈ legalActions s then applyAction s a else none

/-- Run a list of legal actions from a given state. -/
def runFrom (s : GameState) : List Int → Option GameState
  | [] => some s
  | a :: rest =>
    match stepLegal s a with
    | none => none
    | some s2 => runFrom s2 rest

/-- Run a list of legal actions from the initial state. -/
def runTrace (tr : List Int) : Option GameState :=
  runFrom initState tr

/-- The states reachable from the initial state by legal actions. -/
inductive Reachable : GameState → Prop where
  | init : Reachable initState
  | step {s a s2} : Reachable s → stepLegal s a = some s2 → Reachable s2

/-! ### A concrete legal game

A fully scripted game used as a source of concrete reachable states:
face-up slot 0 (so `first_player = 0`), a deal leaving cards 50, 52, 53
(ranks 11, 13, 14) in the leftover block, player 0 bidding 1 and the
others passing (so player 0 is the landlord), then a play phase in
which the landlord plays two solos inside trick 0, loses the trick to
player 1, and player 1 runs out their whole hand in solos. -/

/-- The cards dealt to seat 0 (deal rounds 0, 3, 6, ...). -/
def p0Cards : List Int := [0, 2, 4, 17, 30, 43, 5, 18, 31, 44, 6, 19, 32, 45, 7, 20, 33]

/-- The cards dealt to seat 1 (deal rounds 1, 4, 7, ...). -/
def p1Cards : List Int := [1, 3, 8, 21, 34, 47, 9, 22, 35, 48, 10, 23, 36, 49, 11, 24, 37]

/-- The cards dealt to seat 2 (deal rounds 2, 5, 8, ...). -/
def p2Cards : List Int := [12, 13, 14, 15, 16, 25, 26, 27, 28, 29, 38, 39, 40, 41, 42, 46, 51]

/-- The 51 dealt cards in chronological order (round-robin seats). -/
def dealSeq : List Int :=
  (List.range 17).flatMap (fun j => [p0Cards.getD j 0, p1Cards.getD j 0, p2Cards.getD j 0])

/-- The chance actions of the deal phase: choose face-up slot 0, then
deal the 51 cards. -/
def dealPart : List Int := 0 :: dealSeq.map (fun c => c + kDealingActionBase)

/-- The deal followed by the auction: player 0 bids 1, players 1 and 2
pass, so player 0 becomes the landlord. -/
def aucPart : List Int := dealPart ++ [106, 105, 105]

/-- Trick 0 of the scripted play phase: the landlord plays solo rank 0,
player 1 beats with rank 1, player 2 passes, the landlord beats with
rank 2, player 1 beats with rank 3, then two passes close the trick
with player 1 as winner. -/
def trick0Part : List Int := [109, 110, 105, 111, 112, 105, 105]

/-- The solos player 1 leads in tricks 1..14 (two passes follow each). -/
def playLeads : List Int := [117, 117, 117, 117, 118, 118, 118, 118, 119, 119, 119, 119, 120, 120]

/-- The whole scripted play phase; player 1's final solo of rank 11
empties their hand and ends the game. -/
def playPart : List Int :=
  trick0Part ++ playLeads.flatMap (fun a => [a, 105, 105]) ++ [120]

/-- The deal and auction followed by trick 0's close: a reachable state
just after a trick-closing pass. -/
def closePart : List Int := aucPart ++ trick0Part

/-- The complete scripted game, ending in `GameOver` by player 1
emptying their hand. -/
def fullGame : List Int := aucPart ++ playPart

/-- Total number of cards still in the undealt pool. -/
def poolSum (s : GameState) : Int := sumI s.dealerDeck

/-- Total of a per-player table of per-rank hand counts. -/
def handsTotal (h : List (List Int)) : Int := sumI (h.map sumI)

/-- Total number of cards across the three hands. -/
def handsSum (s : GameState) : Int := handsTotal s.holds

/-- Total of the played-card ledger. -/
def playedSum (s : GameState) : Int := sumI s.playedDeck

/-- Whether the leftover block has already been handed to a landlord:
from the auction's conclusion-with-a-winner on, i.e. in the play phase
and in any game over reached with a decided landlord. -/
def transferred (s : GameState) : Prop :=
  s.phase = Phase.play ∨ (s.phase = Phase.gameOver ∧ s.dizhu ≠ kInvalidPlayer)

/-- Follows the spec's words: `paying = winning_bid * 2^(is_spring +
bombs_played)`, the per-farmer stake of the settlement. -/
def paying (s : GameState) : Int :=
  s.winningBid *
    2 ^ ((if isSpring s.playersHandsPlayed s.dizhu then 1 else 0) + s.bombsPlayed)

/-- Follows the spec's words: `sign = +1` if `final_winner == landlord`
else `-1`. -/
def dzSign (s : GameState) : Int :=
  if s.finalWinner = s.dizhu then 1 else -1

/-- Follows the spec's words (for the spring condition): replay a
trace, recording for player `p` the index of the trick in progress at
each real (non-pass) play `p` makes during the play phase. -/
def playRecord (tr : List Int) (p : Int) : List Nat :=
  (tr.foldl (fun acc a =>
    match acc with
    | (none, rec0) => (none, rec0)
    | (some s, rec0) =>
      (stepLegal s a,
        if s.phase = Phase.play ∧ a ≠ kPass ∧ s.currentPlayer = p then
          rec0 ++ [s.tricksPlayed]
        else rec0)) ((some initState, []) : Option GameState × List Nat)).2

/-- Follows the spec's words: the distinct tricks in which player `p`
played during a trace. -/
def tricksOf (tr : List Int) (p : Int) : List Nat :=
  (playRecord tr p).dedup

/-! ### The reachable-state invariant -/

/-- A valid seat index. -/
def validPlayer (p : Int) : Prop := p = 0 ∨ p = 1 ∨ p = 2

/-- All entries of a count array are 0 or 1 (the dealer deck holds one
copy of each card). -/
def entries01 (l : List Int) : Prop := ∀ x ∈ l, x = 0 ∨ x = 1

/-- The fixed array dimensions of the engine state. -/
def structOK (s : GameState) : Prop :=
  s.holds.length = 3 ∧ (∀ h ∈ s.holds, h.length = 15) ∧
  s.dealerDeck.length = 54 ∧ s.playedDeck.length = 15

/-- Every recorded leftover entry is a real rank. -/
def leftoverOK (s : GameState) : Prop :=
  ∀ r ∈ s.cardsLeftOver, 0 ≤ r ∧ r < 15

/-- Invariant of deal-phase states: nothing played, no leftover yet,
binary pool, and the deal counters tied to the history length. -/
def dealInv (s : GameState) : Prop :=
  s.cardsLeftOver = [] ∧ s.playedDeck = List.replicate 15 0 ∧
  entries01 s.dealerDeck ∧ s.winningBid = 0 ∧ s.dizhu = kInvalidPlayer ∧
  s.tricks = [] ∧ s.tricksPlayed = 0 ∧
  (if s.cardFaceUpPosition = -1 then
    s.history = [] ∧ s.dealerDeck = List.replicate 54 1 ∧
      s.holds = List.replicate 3 (List.replicate 15 0)
  else
    0 ≤ s.cardFaceUpPosition ∧ s.cardFaceUpPosition < 51 ∧
    1 ≤ s.history.length ∧ s.history.length ≤ 51 ∧
    (s.history.headD (0, 0)).2 = s.cardFaceUpPosition ∧
    poolSum s = 54 - ((s.history.length : Int) - 1) ∧
    handsSum s = (s.history.length : Int) - 1 ∧
    (s.cardFaceUpPosition + 2 ≤ (s.history.length : Int) →
      s.firstPlayer = s.cardFaceUpPosition % 3))

/-- Invariant of auction-phase states. -/
def auctionInv (s : GameState) : Prop :=
  poolSum s = 3 ∧ handsSum s = 51 ∧ s.playedDeck = List.replicate 15 0 ∧
  entries01 s.dealerDeck ∧
  s.cardsLeftOver.length = 3 ∧ validPlayer s.currentPlayer ∧
  s.tricks = [] ∧ s.tricksPlayed = 0 ∧
  ((s.winningBid = 0 ∧ s.dizhu = kInvalidPlayer) ∨
    (1 ≤ s.winningBid ∧ s.winningBid ≤ 3 ∧ validPlayer s.dizhu)) ∧
  (0 < s.winningBid → s.numPasses ≤ 1)

/-- Invariant of play-phase states. -/
def playInv (s : GameState) : Prop :=
  poolSum s = 3 ∧ handsSum s + playedSum s = 54 ∧
  s.cardsLeftOver.length = 3 ∧ validPlayer s.currentPlayer ∧
  validPlayer s.dizhu ∧
  s.tricks.length = s.tricksPlayed + 1 ∧
  (s.newTrickBegin = true → s.numPasses = 0) ∧
  (s.newTrickBegin = false → validPlayer (currentTrick s).winningPlayer)

/-- Invariant of terminal states: either no landlord was ever decided
(the all-pass ending: hands untouched, nothing played) or a landlord
exists and cards moved only between hands and the played ledger. -/
def overInv (s : GameState) : Prop :=
  poolSum s = 3 ∧ s.cardsLeftOver.length = 3 ∧
  ((s.dizhu = kInvalidPlayer ∧ handsSum s = 51 ∧ playedSum s = 0) ∨
    (validPlayer s.dizhu ∧ handsSum s + playedSum s = 54))

/-- The inductive invariant of all reachable states. -/
def Inv (s : GameState) : Prop :=
  structOK s ∧ leftoverOK s ∧
  (s.phase = Phase.deal → dealInv s) ∧
  (s.phase = Phase.auction → auctionInv s) ∧
  (s.phase = Phase.play → playInv s) ∧
  (s.phase = Phase.gameOver → overInv s)

/-! ### Concrete states used as witness inputs -/

/-- A concrete terminal state with a decided landlord (seat 0), a bid
of 2, one bomb played and the landlord defeated by seat 1. -/
def cOneState : GameState :=
  { initState with
      phase := .gameOver,
      dizhu := 0,
      winningBid := 2,
      bombsPlayed := 1,
      finalWinner := 1,
      playersHandsPlayed := [3, 5, 0] }

/-- A concrete mid-auction state: seat 0 bid 1, seat 1 to act. -/
def cAucState : GameState :=
  { initState with
      phase := .auction,
      currentPlayer := 1,
      winningBid := 1,
      dizhu := 0,
      numPasses := 0 }

/-- A concrete auction state one pass away from finalization: seat 2
bid 2, seat 0 passed, seat 1 to act. -/
def cFinState : GameState :=
  { initState with
      phase := .auction,
      currentPlayer := 1,
      winningBid := 2,
      dizhu := 2,
      numPasses := 1,
      cardsLeftOver := [11, 13, 14] }

/-- A concrete play-phase state in the middle of a trick (seat 1 to
act over seat 0's solo of rank 4, pass available). -/
def cPlayState : GameState :=
  { initState with
      phase := .play,
      currentPlayer := 1,
      dizhu := 0,
      winningBid := 1,
      newTrickBegin := false,
      tricks := [Trick.mk 0 113 0],
      tricksPlayed := 0,
      numPasses := 0,
      holds := [[1, 1, 0, 0, 0, 0, 0, 0, 0, 0, 0, 0, 0, 0, 0],
                [0, 0, 1, 0, 0, 1, 0, 0, 0, 0, 0, 0, 0, 0, 0],
                [0, 0, 0, 1, 1, 0, 0, 0, 0, 0, 0, 0, 0, 0, 0]] }

/-- A concrete play state one pass away from a trick close: seat 0 led
and seat 1 beat (winning action 113), seat 2 passed, seat 0 to act. -/
def cCloseState : GameState :=
  { cPlayState with
      numPasses := 1,
      currentPlayer := 0,
      tricks := [Trick.mk 0 113 1] }

/-- A concrete terminal state (for the fatality half of the apply
contract). -/
def cNineGameOverState : GameState :=
  { initState with phase := .gameOver }

/-- The deal followed by a single bid of 1 by seat 0: a reachable
auction state in which `Bid 1` (action 106) is no longer legal. -/
def cNineTrace : List Int := dealPart ++ [106]

/-! ### Basic lemmas about the count-array helpers -/

theorem length_setI (l : List Int) (i v : Int) : (setI l i v).length = l.length := by
  unfold setI
  split <;> simp

theorem length_updI (l : List Int) (i : Int) (f : Int → Int) :
    (updI l i f).length = l.length :=
  length_setI ..

theorem length_setH (h : List (List Int)) (p : Int) (v : List Int) :
    (setH h p v).length = h.length := by
  unfold setH
  split <;> simp

theorem length_updH (h : List (List Int)) (p : Int) (f : List Int → List Int) :
    (updH h p f).length = h.length :=
  length_setH ..

theorem getI_setI_eq (l : List Int) (i v : Int) (h0 : 0 ≤ i) (h : i.toNat < l.length) :
    getI (setI l i v) i = v := by
  unfold getI setI
  simp [h0, List.getD, List.getElem?_set_self, h]

theorem getI_setI_ne (l : List Int) (i j v : Int) (hne : i ≠ j) :
    getI (setI l i v) j = getI l j := by
  unfold getI setI
  rcases le_or_lt 0 i with hi | hi
  · rcases le_or_lt 0 j with hj | hj
    · have : i.toNat ≠ j.toNat := fun hc => hne (by omega)
      simp [hi, hj, List.getD, List.getElem?_set_ne this]
    · simp [hi, not_le.mpr hj]
  · simp [not_le.mpr hi]

theorem getI_updI_eq (l : List Int) (i : Int) (f : Int → Int)
    (h0 : 0 ≤ i) (h : i.toNat < l.length) :
    getI (updI l i f) i = f (getI l i) :=
  getI_setI_eq l i _ h0 h

theorem getI_updI_ne (l : List Int) (i j : Int) (f : Int → Int) (hne : i ≠ j) :
    getI (updI l i f) j = getI l j :=
  getI_setI_ne l i j _ hne

theorem getH_setH_eq (h : List (List Int)) (p : Int) (v : List Int)
    (h0 : 0 ≤ p) (hl : p.toNat < h.length) :
    getH (setH h p v) p = v := by
  unfold getH setH
  simp [h0, List.getD, List.getElem?_set_self, hl]

theorem getH_setH_ne (h : List (List Int)) (p q : Int) (v : List Int) (hne : p ≠ q) :
    getH (setH h p v) q = getH h q := by
  unfold getH setH
  rcases le_or_lt 0 p with hp | hp
  · rcases le_or_lt 0 q with hq | hq
    · have : p.toNat ≠ q.toNat := fun hc => hne (by omega)
      simp [hp, hq, List.getD, List.getElem?_set_ne this]
    · simp [hp, not_le.mpr hq]
  · simp [not_le.mpr hp]

theorem getH_updH_eq (h : List (List Int)) (p : Int) (f : List Int → List Int)
    (h0 : 0 ≤ p) (hl : p.toNat < h.length) :
    getH (updH h p f) p = f (getH h p) :=
  getH_setH_eq h p _ h0 hl

theorem getH_updH_ne (h : List (List Int)) (p q : Int) (f : List Int → List Int)
    (hne : p ≠ q) :
    getH (updH h p f) q = getH h q :=
  getH_setH_ne h p q _ hne

theorem sumI_append (a b : List Int) : sumI (a ++ b) = sumI a + sumI b := by
  induction a with
  | nil => simp [sumI]
  | cons x xs ih => simp [sumI, ih]; ring

theorem sumI_replicate_zero (n : Nat) : sumI (List.replicate n 0) = 0 := by
  induction n with
  | zero => rfl
  | succ n ih => simp [List.replicate, sumI, ih]

theorem sumI_set (l : List Int) (n : Nat) (v : Int) (h : n < l.length) :
    sumI (l.set n v) = sumI l + v - l.getD n 0 := by
  induction l generalizing n with
  | nil => simp at h
  | cons x xs ih =>
    cases n with
    | zero => simp [sumI, List.getD]; ring
    | succ n =>
      simp only [List.set, sumI, List.getD_cons_succ]
      rw [ih n (by simpa using h)]
      ring

theorem sumI_setI (l : List Int) (i v : Int) (h0 : 0 ≤ i) (h : i.toNat < l.length) :
    sumI (setI l i v) = sumI l + v - getI l i := by
  unfold setI getI
  simp only [h0, if_pos]
  exact sumI_set l i.toNat v h

theorem sumI_updI (l : List Int) (i : Int) (f : Int → Int)
    (h0 : 0 ≤ i) (h : i.toNat < l.length) :
    sumI (updI l i f) = sumI l + f (getI l i) - getI l i :=
  sumI_setI l i _ h0 h

theorem sumI_zipWith_sub (a b : List Int) (h : a.length = b.length) :
    sumI (List.zipWith (fun x y => x - y) a b) = sumI a - sumI b := by
  induction a generalizing b with
  | nil => cases b <;> simp [sumI] at h ⊢
  | cons x xs ih =>
    cases b with
    | nil => simp at h
    | cons y ys =>
      simp only [List.zipWith, sumI]
      rw [ih ys (by simpa using h)]
      ring

theorem sumI_zipWith_add (a b : List Int) (h : a.length = b.length) :
    sumI (List.zipWith (fun x y => x + y) a b) = sumI a + sumI b := by
  induction a generalizing b with
  | nil => cases b <;> simp [sumI] at h ⊢
  | cons x xs ih =>
    cases b with
    | nil => simp at h
    | cons y ys =>
      simp only [List.zipWith, sumI]
      rw [ih ys (by simpa using h)]
      ring

theorem handsTotal_setH (h : List (List Int)) (p : Int) (v : List Int)
    (h0 : 0 ≤ p) (hl : p.toNat < h.length) :
    handsTotal (setH h p v) = handsTotal h + sumI v - sumI (getH h p) := by
  unfold handsTotal setH getH
  simp only [h0, if_pos]
  rw [List.map_set, sumI_set _ _ _ (by simpa using hl)]
  congr 1
  rcases List.getElem?_eq_getElem (l := h) (by simpa using hl) with he
  simp [List.getD, he]

theorem handsTotal_updH (h : List (List Int)) (p : Int) (f : List Int → List Int)
    (h0 : 0 ≤ p) (hl : p.toNat < h.length) :
    handsTotal (updH h p f) = handsTotal h + sumI (f (getH h p)) - sumI (getH h p) :=
  handsTotal_setH h p _ h0 hl

theorem toNat_zero_lit : (0 : Int).toNat = 0 := rfl

theorem toNat_one_lit : (1 : Int).toNat = 1 := rfl

theorem toNat_two_lit : (2 : Int).toNat = 2 := rfl

theorem doubleN_eq (x : Int) (k : Nat) : doubleN x k = x * 2 ^ k := by
  induction k generalizing x with
  | zero => simp [doubleN]
  | succ n ih =>
    rw [doubleN, ih]
    ring

theorem validPlayer_bounds {p : Int} (h : validPlayer p) : 0 ≤ p ∧ p.toNat < 3 := by
  rcases h with h | h | h <;> simp [h]

theorem getH_mem {h : List (List Int)} {p : Int} (h0 : 0 ≤ p) (hl : p.toNat < h.length) :
    getH h p ∈ h := by
  unfold getH
  simp only [h0, if_pos]
  rw [List.getD_eq_getElem _ _ hl]
  exact List.getElem_mem _

theorem addLeftovers_length (rs : List Int) (H : List (List Int)) (d : Int) :
    (addLeftovers H d rs).length = H.length := by
  induction rs generalizing H with
  | nil => rfl
  | cons r rest ih => rw [addLeftovers, ih, length_updH]

theorem addLeftovers_row_lengths (rs : List Int) (H : List (List Int)) (d : Int)
    (h0 : 0 ≤ d) (hdl : d.toNat < H.length)
    (hr : ∀ h ∈ H, h.length = 15) :
    ∀ h ∈ addLeftovers H d rs, h.length = 15 := by
  induction rs generalizing H with
  | nil => exact hr
  | cons r rest ih =>
    rw [addLeftovers]
    refine ih _ (by rw [length_updH]; exact hdl) ?_
    intro h hm
    unfold updH setH at hm
    rw [if_pos h0] at hm
    rcases List.mem_or_eq_of_mem_set hm with hm2 | hm2
    · exact hr h hm2
    · subst hm2
      rw [length_updI]
      exact hr _ (getH_mem h0 hdl)

theorem getH_addLeftovers_ne (rs : List Int) (H : List (List Int)) (d q : Int)
    (hne : d ≠ q) :
    getH (addLeftovers H d rs) q = getH H q := by
  induction rs generalizing H with
  | nil => rfl
  | cons r rest ih =>
    rw [addLeftovers, ih, getH_updH_ne _ _ _ _ hne]

theorem updH_row_lengths (H : List (List Int)) (d : Int) (f : List Int → List Int)
    (h0 : 0 ≤ d) (hdl : d.toNat < H.length)
    (hr : ∀ h ∈ H, h.length = 15)
    (hf : (f (getH H d)).length = 15) :
    ∀ h ∈ updH H d f, h.length = 15 := by
  intro h hm
  unfold updH setH at hm
  rw [if_pos h0] at hm
  rcases List.mem_or_eq_of_mem_set hm with hm2 | hm2
  · exact hr h hm2
  · subst hm2
    exact hf

theorem getI_getH_addLeftovers (rs : List Int) (H : List (List Int)) (d r : Int)
    (h0 : 0 ≤ d) (hdl : d.toNat < H.length)
    (hr : ∀ h ∈ H, h.length = 15)
    (hrs : ∀ x ∈ rs, 0 ≤ x ∧ x < 15) :
    getI (getH (addLeftovers H d rs) d) r = getI (getH H d) r + (rs.count r : Int) := by
  induction rs generalizing H with
  | nil => simp [addLeftovers]
  | cons x rest ih =>
    have hx := hrs x (List.mem_cons_self x rest)
    have hlen : (getH H d).length = 15 := hr _ (getH_mem h0 hdl)
    have hlen2 : (updI (getH H d) x (fun v => v + 1)).length = 15 := by
      rw [length_updI]; exact hlen
    rw [addLeftovers,
      ih (updH H d (fun h => updI h x (fun v => v + 1)))
        (by rw [length_updH]; exact hdl)
        (updH_row_lengths H d _ h0 hdl hr hlen2)
        (fun y hy => hrs y (List.mem_cons_of_mem x hy)),
      getH_updH_eq H d _ h0 hdl]
    by_cases hxr : x = r
    · subst hxr
      rw [getI_updI_eq _ _ _ hx.1 (by rw [hlen]; omega)]
      simp [List.count_cons]
      ring
    · rw [getI_updI_ne _ _ _ _ hxr]
      simp [List.count_cons, hxr]

theorem handsTotal_addLeftovers (rs : List Int) (H : List (List Int)) (d : Int)
    (h0 : 0 ≤ d) (hdl : d.toNat < H.length)
    (hr : ∀ h ∈ H, h.length = 15)
    (hrs : ∀ x ∈ rs, 0 ≤ x ∧ x < 15) :
    handsTotal (addLeftovers H d rs) = handsTotal H + (rs.length : Int) := by
  induction rs generalizing H with
  | nil => simp [addLeftovers]
  | cons x rest ih =>
    have hx := hrs x (List.mem_cons_self x rest)
    have hlen : (getH H d).length = 15 := hr _ (getH_mem h0 hdl)
    have hlen2 : (updI (getH H d) x (fun v => v + 1)).length = 15 := by
      rw [length_updI]; exact hlen
    rw [addLeftovers,
      ih (updH H d (fun h => updI h x (fun v => v + 1)))
        (by rw [length_updH]; exact hdl)
        (updH_row_lengths H d _ h0 hdl hr hlen2)
        (fun y hy => hrs y (List.mem_cons_of_mem x hy)),
      handsTotal_updH H d _ h0 hdl,
      sumI_updI _ _ _ hx.1 (by rw [hlen]; omega)]
    simp
    ring

theorem mem_biddingLegalActions (s : GameState) (a : Int) :
    a ∈ biddingLegalActions s ↔
      a = kPass ∨ ∃ v : Int, s.winningBid < v ∧ v ≤ kNumBids ∧
        a = kBiddingActionBase + v := by
  unfold biddingLegalActions kNumBids kBiddingActionBase kPass
  simp only [List.mem_cons, List.mem_map, List.mem_range]
  constructor
  · rintro (h | ⟨j, hj, rfl⟩)
    · exact Or.inl h
    · exact Or.inr ⟨s.winningBid + 1 + (j : Int), by omega, by omega, by ring⟩
  · rintro (h | ⟨v, h1, h2, rfl⟩)
    · exact Or.inl h
    · exact Or.inr ⟨(v - s.winningBid - 1).toNat, by omega, by omega⟩

theorem mem_insOrd (a x : Int) (l : List Int) :
    x ∈ insOrd a l ↔ x = a ∨ x ∈ l := by
  induction l with
  | nil => simp [insOrd]
  | cons b bs ih =>
    unfold insOrd
    split
    · simp
    · simp only [List.mem_cons, ih]
      tauto

theorem mem_sortOrd (x : Int) (l : List Int) : x ∈ sortOrd l ↔ x ∈ l := by
  induction l with
  | nil => simp [sortOrd]
  | cons b bs ih =>
    unfold sortOrd at ih ⊢
    simp only [List.foldr, List.mem_cons, mem_insOrd, ih]

theorem filterMap_band_lb (base : Int) (n : Nat) (P : Int → Prop) [DecidablePred P] :
    ∀ x ∈ (rng n).filterMap (fun r => if P r then some (base + r) else none),
      base ≤ x := by
  intro x hx
  rcases List.mem_filterMap.mp hx with ⟨r, hr, he⟩
  unfold rng at hr
  rcases List.mem_map.mp hr with ⟨m, _, rfl⟩
  split at he
  · cases he
    omega
  · cases he

theorem searchForLegalActions_lb (hand : List Int) (prev : Int) :
    ∀ x ∈ searchForLegalActions hand prev, kPlayActionBase ≤ x := by
  have hall : ∀ x ∈ soloActions hand ++ pairActions hand ++ trioActions hand ++
      chainActions hand ++ bombActions hand ++ rocketActions hand,
      kPlayActionBase ≤ x := by
    intro x hx
    simp only [List.mem_append] at hx
    have hbase : ∀ b : Int, kPlayActionBase ≤ b → ∀ n (P : Int → Prop) (_ : DecidablePred P),
        x ∈ (rng n).filterMap (fun r => if P r then some (b + r) else none) →
        kPlayActionBase ≤ x := by
      intro b hb n P hP hm
      exact le_trans hb (filterMap_band_lb b n P x hm)
    rcases hx with ((((hx | hx) | hx) | hx) | hx) | hx
    · exact hbase _ le_rfl _ _ inferInstance hx
    · exact hbase kPairActionBase (by norm_num [kPlayActionBase, kPairActionBase]) _ _
        inferInstance hx
    · exact hbase kTrioActionBase (by norm_num [kPlayActionBase, kTrioActionBase]) _ _
        inferInstance hx
    · exact hbase kChainActionBase (by norm_num [kPlayActionBase, kChainActionBase]) _ _
        inferInstance hx
    · exact hbase kBombActionBase (by norm_num [kPlayActionBase, kBombActionBase]) _ _
        inferInstance hx
    · unfold rocketActions at hx
      split at hx <;> simp_all [kPlayActionBase, kRocketActionBase]
  intro x hx
  unfold searchForLegalActions at hx
  rcases hmatch : decodeAction prev with _ | c
  · rw [hmatch] at hx
    exact hall x hx
  · rw [hmatch] at hx
    exact hall x (List.mem_of_mem_filter hx)

/-! ### Claim C1: settlement formula and zero-sum -/

/-- C1: when the game reaches GameOver with a decided landlord,
settlement computes `paying = winning_bid * 2^(is_spring +
bombs_played)`; the landlord's return is `sign * 2 * paying` and each
other player's return is `-sign * paying` (`sign = +1` iff
`final_winner == landlord`); hence the three returns sum to 0. -/
theorem scoreUp_returns_spec (s : GameState) (hd : validPlayer s.dizhu)
    (hr : s.returns.length = 3) :
    getI (scoreUp s).returns s.dizhu = dzSign s * 2 * paying s ∧
    getI (scoreUp s).returns ((s.dizhu + 1) % 3) = -dzSign s * paying s ∧
    getI (scoreUp s).returns ((s.dizhu + 2) % 3) = -dzSign s * paying s ∧
    sumI (scoreUp s).returns = 0 := by
  obtain ⟨x, y, z, hxyz⟩ := List.length_eq_three.mp hr
  rcases hd with h | h | h <;>
  · simp only [scoreUp, h, hxyz, kInvalidPlayer, paying, dzSign, doubleN_eq]
    norm_num [setI, getI, sumI, toNat_zero_lit, toNat_one_lit, toNat_two_lit]
    split_ifs <;> norm_num <;> ring

theorem claim_C1 (s : GameState) (hd : validPlayer s.dizhu)
    (hr : s.returns.length = 3) :
    getI (scoreUp s).returns s.dizhu = dzSign s * 2 * paying s ∧
    getI (scoreUp s).returns ((s.dizhu + 1) % 3) = -dzSign s * paying s ∧
    getI (scoreUp s).returns ((s.dizhu + 2) % 3) = -dzSign s * paying s ∧
    sumI (scoreUp s).returns = 0 :=
  scoreUp_returns_spec s hd hr

/-- Witness for C1 at a concrete settled state. -/
theorem claim_C1_w :
    getI (scoreUp cOneState).returns cOneState.dizhu =
        dzSign cOneState * 2 * paying cOneState ∧
    getI (scoreUp cOneState).returns ((cOneState.dizhu + 1) % 3) =
        -dzSign cOneState * paying cOneState ∧
    getI (scoreUp cOneState).returns ((cOneState.dizhu + 2) % 3) =
        -dzSign cOneState * paying cOneState ∧
    sumI (scoreUp cOneState).returns = 0 :=
  claim_C1 cOneState (Or.inl rfl) rfl

/-! ### Claim C5: auction legal actions and bid monotonicity -/

theorem applyBiddingAction_winningBid (s : GameState) (a : Int) :
    (applyBiddingAction s a).winningBid =
      if a = kPass then s.winningBid else a - kBiddingActionBase := by
  unfold applyBiddingAction
  by_cases h : a = kPass <;> simp only [h, if_pos, if_neg, ite_true, ite_false] <;>
    split_ifs <;> rfl

/-- C5: during the auction the legal-action set is exactly `{Pass}`
together with `Bid v` for `winning_bid < v ≤ MaxBid`; consequently a
legal accepted bid strictly raises `winning_bid` and a pass leaves it
unchanged, so accepted bids are strictly increasing and `winning_bid`
is non-decreasing across an auction. -/
theorem claim_C5 (s : GameState) (hph : s.phase = Phase.auction) :
    (∀ a : Int, a ∈ legalActions s ↔
      (a = kPass ∨ ∃ v : Int, s.winningBid < v ∧ v ≤ kNumBids ∧
        a = kBiddingActionBase + v)) ∧
    (∀ a : Int, a ∈ legalActions s → a ≠ kPass →
      s.winningBid < (applyBiddingAction s a).winningBid) ∧
    (applyBiddingAction s kPass).winningBid = s.winningBid := by
  have hla : legalActions s = biddingLegalActions s := by
    unfold legalActions
    rw [hph]
  refine ⟨?_, ?_, ?_⟩
  · intro a
    rw [hla]
    exact mem_biddingLegalActions s a
  · intro a hm hne
    rw [hla, mem_biddingLegalActions] at hm
    rcases hm with h | ⟨v, h1, h2, rfl⟩
    · exact absurd h hne
    · rw [applyBiddingAction_winningBid, if_neg hne]
      omega
  · rw [applyBiddingAction_winningBid, if_pos rfl]

/-- Witness for C5 at a concrete mid-auction state. -/
theorem claim_C5_w :
    (∀ a : Int, a ∈ legalActions cAucState ↔
      (a = kPass ∨ ∃ v : Int, cAucState.winningBid < v ∧ v ≤ kNumBids ∧
        a = kBiddingActionBase + v)) ∧
    (∀ a : Int, a ∈ legalActions cAucState → a ≠ kPass →
      cAucState.winningBid < (applyBiddingAction cAucState a).winningBid) ∧
    (applyBiddingAction cAucState kPass).winningBid = cAucState.winningBid :=
  claim_C5 cAucState rfl

/-! ### Claim C8: Pass availability in the play phase -/

/-- C8: during the play phase, `Pass` is in the legal-action set iff
`new_trick_begin` is false: the leader of a freshly opened trick is
never offered `Pass`, every other acting player is. -/
theorem claim_C8 (s : GameState) (hph : s.phase = Phase.play) :
    kPass ∈ legalActions s ↔ s.newTrickBegin = false := by
  have hla : legalActions s = playLegalActions s := by
    unfold legalActions
    rw [hph]
  rw [hla]
  unfold playLegalActions
  rw [mem_sortOrd, List.mem_append]
  constructor
  · rintro (h | h)
    · cases hntb : s.newTrickBegin
      · rfl
      · rw [hntb] at h
        simp at h
    · have := searchForLegalActions_lb _ _ _ h
      norm_num [kPass, kPlayActionBase] at this
  · intro h
    left
    rw [h]
    simp

/-- Witness for C8 at a concrete mid-trick play state. -/
theorem claim_C8_w : kPass ∈ legalActions cPlayState ↔ cPlayState.newTrickBegin = false :=
  claim_C8 cPlayState rfl

/-! ### Claim C10: frame effect of a non-finalizing auction pass -/

/-- C10: applying a non-finalizing Pass during the auction (the pass
counter does not reach 3, and does not reach 2 with a standing bid)
changes only the consecutive-pass counter and the round-robin
`current_player`; hands, pool, leftover block, `winning_bid`,
landlord, tricks and everything else are untouched. -/
theorem pass_nonfinal_eq (s : GameState)
    (h3 : s.numPasses + 1 ≠ 3) (h2 : ¬(s.numPasses + 1 = 2 ∧ 0 < s.winningBid)) :
    applyBiddingAction s kPass =
      { s with
          numPasses := s.numPasses + 1,
          currentPlayer := (s.currentPlayer + 1) % 3 } := by
  unfold applyBiddingAction kNumPlayers
  have e3 : ¬((((s.numPasses + 1 : Nat)) : Int) = 3) := by omega
  have e2 : ¬(kPass = kPass ∧ (((s.numPasses + 1 : Nat)) : Int) = 3 - 1 ∧
      0 < s.winningBid) := by
    rintro ⟨-, hx, hy⟩
    exact h2 ⟨by omega, hy⟩
  simp only [if_pos rfl, ite_true, e3, e2, if_neg, ite_false, false_and, and_false,
    not_false_iff, or_false, if_false]
  split_ifs with hw
  · rcases hw with ⟨-, hx, hy⟩ | ⟨hnt, -⟩
    · exact absurd ⟨by omega, hy⟩ h2
    · exact absurd trivial hnt
  · rfl

theorem claim_C10 (s : GameState) (hph : s.phase = Phase.auction)
    (h3 : s.numPasses + 1 ≠ 3) (h2 : ¬(s.numPasses + 1 = 2 ∧ 0 < s.winningBid)) :
    applyBiddingAction s kPass =
      { s with
          numPasses := s.numPasses + 1,
          currentPlayer := (s.currentPlayer + 1) % 3 } :=
  pass_nonfinal_eq s h3 h2

/-- Witness for C10 at a concrete mid-auction state. -/
theorem claim_C10_w :
    applyBiddingAction cAucState kPass =
      { cAucState with
          numPasses := cAucState.numPasses + 1,
          currentPlayer := (cAucState.currentPlayer + 1) % 3 } :=
  claim_C10 cAucState rfl (by decide) (by decide)

/-! ### Claim C3: auction pass handling -/

theorem getI_replicate_zero (n : Nat) (p : Int) :
    getI (List.replicate n 0) p = 0 := by
  unfold getI
  split
  · rcases Nat.lt_or_ge p.toNat n with h | h
    · rw [List.getD_eq_getElem _ _ (by simpa using h)]
      simp
    · rw [List.getD_eq_default]
      simpa using h
  · rfl

/-- C3: during the auction, a Pass increments the consecutive-pass
counter; at 3 passes with no bid ever placed the game goes straight to
GameOver with zero returns and untouched hands and leftover block; at
2 passes with a standing bid the auction finalizes: the leftover block
is added in full to the landlord's hand, the phase becomes Play, trick
0 is created with leader = landlord, and the landlord takes the turn. -/
theorem claim_C3 (s : GameState) (hph : s.phase = Phase.auction)
    (hd3 : s.holds.length = 3)
    (hrows : ∀ h ∈ s.holds, h.length = 15)
    (hlo : ∀ r ∈ s.cardsLeftOver, 0 ≤ r ∧ r < 15)
    (htr : s.tricks = [])
    (hrz : ∀ p, getI s.returns p = 0) :
    (¬(s.numPasses + 1 = 3) → ¬(s.numPasses + 1 = 2 ∧ 0 < s.winningBid) →
      (applyBiddingAction s kPass).numPasses = s.numPasses + 1) ∧
    (s.numPasses + 1 = 3 → s.winningBid = 0 →
      (applyBiddingAction s kPass).phase = Phase.gameOver ∧
      (∀ p, getI (applyBiddingAction s kPass).returns p = 0) ∧
      (applyBiddingAction s kPass).holds = s.holds ∧
      (applyBiddingAction s kPass).cardsLeftOver = s.cardsLeftOver) ∧
    (s.numPasses + 1 = 2 → 0 < s.winningBid → validPlayer s.dizhu →
      (applyBiddingAction s kPass).phase = Phase.play ∧
      (applyBiddingAction s kPass).currentPlayer = s.dizhu ∧
      (applyBiddingAction s kPass).newTrickBegin = true ∧
      (applyBiddingAction s kPass).numPasses = 0 ∧
      (applyBiddingAction s kPass).tricks = [Trick.mkLA s.dizhu kInvalidAction] ∧
      (Trick.mkLA s.dizhu kInvalidAction).leader = s.dizhu ∧
      (∀ r : Int, getI (getH (applyBiddingAction s kPass).holds s.dizhu) r =
        getI (getH s.holds s.dizhu) r + (s.cardsLeftOver.count r : Int)) ∧
      (∀ q : Int, q ≠ s.dizhu →
        getH (applyBiddingAction s kPass).holds q = getH s.holds q)) := by
  refine ⟨?_, ?_, ?_⟩
  · intro h3 h2
    rw [pass_nonfinal_eq s h3 h2]
  · intro h3 hwb
    have key : applyBiddingAction s kPass =
        { s with
            numPasses := s.numPasses + 1,
            phase := Phase.gameOver,
            currentPlayer := (s.currentPlayer + 1) % 3 } := by
      unfold applyBiddingAction kNumPlayers kNumBids
      have e1 : (((s.numPasses + 1 : Nat)) : Int) = 3 := by omega
      have e2 : ¬((((s.numPasses + 1 : Nat)) : Int) = 3 - 1) := by omega
      simp only [if_pos rfl, ite_true, e1, e2, if_neg, ite_false, false_and,
        and_false, not_false_iff, or_false, if_false, not_true, true_and,
        false_or, and_true]
      rfl
    rw [key]
    exact ⟨rfl, hrz, rfl, rfl⟩
  · intro h2 hwb hdv
    have key : applyBiddingAction s kPass =
        { s with
            numPasses := 0,
            holds := addLeftovers s.holds s.dizhu s.cardsLeftOver,
            phase := Phase.play,
            currentPlayer := s.dizhu,
            newTrickBegin := true,
            tricks := s.tricks ++ [Trick.mkLA s.dizhu kInvalidAction] } := by
      unfold applyBiddingAction kNumPlayers kNumBids
      have e1 : ¬((((s.numPasses + 1 : Nat)) : Int) = 3) := by omega
      have e2 : (((s.numPasses + 1 : Nat)) : Int) = 3 - 1 := by omega
      simp only [if_pos rfl, ite_true, e1, e2, if_neg, ite_false, false_and,
        and_false, not_false_iff, or_false, if_false, not_true, true_and,
        false_or, and_true, hwb]
      rfl
    rw [key]
    obtain ⟨hd0, hdlt⟩ := validPlayer_bounds hdv
    refine ⟨rfl, rfl, rfl, rfl, by rw [htr]; rfl, rfl, ?_, ?_⟩
    · intro r
      exact getI_getH_addLeftovers s.cardsLeftOver s.holds s.dizhu r hd0
        (by rw [hd3]; exact hdlt) hrows hlo
    · intro q hq
      exact getH_addLeftovers_ne s.cardsLeftOver s.holds s.dizhu q
        (fun he => hq he.symm)

/-- Witness for C3 at a concrete auction state one pass away from
finalization. -/
theorem claim_C3_w :
    (¬(cFinState.numPasses + 1 = 3) →
      ¬(cFinState.numPasses + 1 = 2 ∧ 0 < cFinState.winningBid) →
      (applyBiddingAction cFinState kPass).numPasses = cFinState.numPasses + 1) ∧
    (cFinState.numPasses + 1 = 3 → cFinState.winningBid = 0 →
      (applyBiddingAction cFinState kPass).phase = Phase.gameOver ∧
      (∀ p, getI (applyBiddingAction cFinState kPass).returns p = 0) ∧
      (applyBiddingAction cFinState kPass).holds = cFinState.holds ∧
      (applyBiddingAction cFinState kPass).cardsLeftOver = cFinState.cardsLeftOver) ∧
    (cFinState.numPasses + 1 = 2 → 0 < cFinState.winningBid →
      validPlayer cFinState.dizhu →
      (applyBiddingAction cFinState kPass).phase = Phase.play ∧
      (applyBiddingAction cFinState kPass).currentPlayer = cFinState.dizhu ∧
      (applyBiddingAction cFinState kPass).newTrickBegin = true ∧
      (applyBiddingAction cFinState kPass).numPasses = 0 ∧
      (applyBiddingAction cFinState kPass).tricks =
        [Trick.mkLA cFinState.dizhu kInvalidAction] ∧
      (Trick.mkLA cFinState.dizhu kInvalidAction).leader = cFinState.dizhu ∧
      (∀ r : Int, getI (getH (applyBiddingAction cFinState kPass).holds cFinState.dizhu) r =
        getI (getH cFinState.holds cFinState.dizhu) r +
          (cFinState.cardsLeftOver.count r : Int)) ∧
      (∀ q : Int, q ≠ cFinState.dizhu →
        getH (applyBiddingAction cFinState kPass).holds q = getH cFinState.holds q)) :=
  claim_C3 cFinState rfl rfl (by decide) (by decide) rfl
    (fun p => getI_replicate_zero 3 p)

/-! ### Claim C6 (amended): closing a trick -/

/-- C6 (amended): when consecutive passes reach `num_players - 1`
during play, the trick closes: `current_player` becomes the closed
trick's `winning_player`, a fresh `Trick()` is appended,
`new_trick_begin` is set, and the pass counter resets; the appended
trick's `leader` field is the invalid sentinel (the winner leads only
de facto, through `current_player`), not the winner. -/
theorem claim_C6 (s : GameState) (hph : s.phase = Phase.play)
    (hnp : s.numPasses + 1 = 2) :
    applyPlayAction s kPass = some
      { s with
          numPlayed := s.numPlayed + 1,
          currentPlayer := (currentTrick s).winningPlayer,
          tricksPlayed := s.tricksPlayed + 1,
          numPasses := 0,
          tricks := s.tricks ++ [defaultTrick],
          newTrickBegin := true } ∧
    defaultTrick.leader = kInvalidPlayer := by
  constructor
  · unfold applyPlayAction kNumPlayers
    have e : (((s.numPasses + 1 : Nat)) : Int) = 3 - 1 := by omega
    simp only [if_pos rfl, ite_true, e]
    rfl
  · rfl

/-- Witness for C6 at a concrete play state one pass from closing. -/
theorem claim_C6_w :
    applyPlayAction cCloseState kPass = some
      { cCloseState with
          numPlayed := cCloseState.numPlayed + 1,
          currentPlayer := (currentTrick cCloseState).winningPlayer,
          tricksPlayed := cCloseState.tricksPlayed + 1,
          numPasses := 0,
          tricks := cCloseState.tricks ++ [defaultTrick],
          newTrickBegin := true } ∧
    defaultTrick.leader = kInvalidPlayer :=
  claim_C6 cCloseState rfl rfl

/-! ### Claim C4 (amended): the spring flag -/

/-- C4 (amended): the `is_spring` flag used by settlement is true iff
the landlord made exactly one (non-pass) play in the whole game, or
neither farmer ever played a hand; the landlord's return is then paid
from `paying`, which doubles once when the flag is set. -/
theorem claim_C4 (s : GameState) (hd : validPlayer s.dizhu)
    (hr : s.returns.length = 3) :
    (isSpring s.playersHandsPlayed s.dizhu = true ↔
      (getI s.playersHandsPlayed s.dizhu = 1 ∨
        (getI s.playersHandsPlayed ((s.dizhu + 1) % 3) = 0 ∧
          getI s.playersHandsPlayed ((s.dizhu + 2) % 3) = 0))) ∧
    getI (scoreUp s).returns s.dizhu = dzSign s * 2 * paying s := by
  constructor
  · simp [isSpring]
  · exact (scoreUp_returns_spec s hd hr).1

/-- Witness for C4 at a concrete settled state. -/
theorem claim_C4_w :
    (isSpring cOneState.playersHandsPlayed cOneState.dizhu = true ↔
      (getI cOneState.playersHandsPlayed cOneState.dizhu = 1 ∨
        (getI cOneState.playersHandsPlayed ((cOneState.dizhu + 1) % 3) = 0 ∧
          getI cOneState.playersHandsPlayed ((cOneState.dizhu + 2) % 3) = 0))) ∧
    getI (scoreUp cOneState).returns cOneState.dizhu =
      dzSign cOneState * 2 * paying cOneState :=
  claim_C4 cOneState (Or.inl rfl) rfl

/-! ### Claim C9 (amended): fatality and legality checking -/

/-- C9 (amended): applying any action once `Phase == GameOver` is
fatal; but during the auction no legality check is made at all — every
action id (legal or not) is applied and the call succeeds; during play
the only fatal condition besides terminality is the hand-count
underflow consistency check of `AfterPlayHand`. -/
theorem claim_C9 (s : GameState) :
    (s.phase = Phase.gameOver → ∀ a : Int, applyAction s a = none) ∧
    (s.phase = Phase.auction → ∀ a : Int, ∃ s2, applyAction s a = some s2) ∧
    (s.phase = Phase.play → ∀ a : Int, a ≠ kPass →
      ((List.range 15).all
        (fun r => decide (getI (actionToHand a) (r : Int) ≤
          getI (getH s.holds s.currentPlayer) (r : Int)))) = false →
      applyAction s a = none) := by
  refine ⟨?_, ?_, ?_⟩
  · intro h a
    unfold applyAction doApplyAction
    rw [h]
    rfl
  · intro h a
    unfold applyAction doApplyAction
    rw [h]
    exact ⟨_, rfl⟩
  · intro h a hne hfail
    unfold applyAction doApplyAction
    rw [h]
    unfold applyPlayAction
    rw [if_neg hne]
    unfold afterPlayHand
    dsimp only
    rw [hfail]
    rfl

/-- Witness for C9: a terminal state rejects every action, an auction
state accepts an arbitrary one. -/
theorem claim_C9_w :
    applyAction cNineGameOverState 0 = none ∧
    ∃ s2, applyAction cAucState 7 = some s2 :=
  ⟨(claim_C9 cNineGameOverState).1 rfl 0, (claim_C9 cAucState).2.1 rfl 7⟩

/-! ### Support lemmas for the reachability invariant -/

theorem sumI_replicate_one (n : Nat) : sumI (List.replicate n 1) = (n : Int) := by
  induction n with
  | zero => rfl
  | succ m ih =>
    rw [List.replicate_succ]
    show 1 + sumI (List.replicate m 1) = ((m + 1 : Nat) : Int)
    rw [ih]
    push_cast
    ring

theorem getI_mem {l : List Int} {i : Int} (h0 : 0 ≤ i) (hl : i.toNat < l.length) :
    getI l i ∈ l := by
  unfold getI
  rw [if_pos h0, List.getD_eq_getElem _ _ hl]
  exact List.getElem_mem _

theorem headD_append {α : Type} (l : List α) (x d : α) (h : l ≠ []) :
    (l ++ [x]).headD d = l.headD d := by
  cases l with
  | nil => exact absurd rfl h
  | cons y ys => rfl

theorem validPlayer_emod3 (n : Int) (h : 0 ≤ n) : validPlayer (n % 3) := by
  unfold validPlayer
  omega

theorem validPlayer_succ {p : Int} (h : validPlayer p) : validPlayer ((p + 1) % 3) := by
  unfold validPlayer at h ⊢
  omega

theorem cardToRank_bounds (c : Int) (h0 : 0 ≤ c) (h1 : c < 54) :
    0 ≤ cardToRank c ∧ cardToRank c < 15 := by
  unfold cardToRank
  split_ifs <;> omega

theorem combToHand_length (c : Comb) : (combToHand c).length = 15 := by
  cases c <;> simp [combToHand, rng]

theorem actionToHand_length (a : Int) : (actionToHand a).length = 15 := by
  unfold actionToHand
  rcases decodeAction a with _ | c
  · simp
  · exact combToHand_length c

theorem getI_cons_succ (x : Int) (xs : List Int) (i : Int) (h : 0 ≤ i) :
    getI (x :: xs) (i + 1) = getI xs i := by
  unfold getI
  rw [if_pos (by omega : (0:Int) ≤ i + 1), if_pos h]
  have : (i + 1).toNat = i.toNat + 1 := by omega
  rw [this]
  rfl

theorem getI_cons_zero (x : Int) (xs : List Int) : getI (x :: xs) 0 = x := rfl

theorem mem_rng (n : Nat) (a : Int) : a ∈ rng n ↔ 0 ≤ a ∧ a < (n : Int) := by
  unfold rng
  simp only [List.mem_map, List.mem_range]
  constructor
  · rintro ⟨m, hm, rfl⟩
    omega
  · rintro ⟨h0, h1⟩
    exact ⟨a.toNat, by omega, by omega⟩

theorem rng_succ (n : Nat) : rng (n + 1) = 0 :: (rng n).map (fun x => x + 1) := by
  unfold rng
  rw [List.range_succ_eq_map, List.map_cons, List.map_map, List.map_map]
  have hmap : List.map ((fun i : Nat => (i : Int)) ∘ Nat.succ) (List.range n) =
      List.map ((fun x : Int => x + 1) ∘ fun i : Nat => (i : Int)) (List.range n) :=
    List.map_congr_left (fun m _ => by simp [Function.comp, Nat.succ_eq_add_one])
  rw [hmap]
  norm_num

theorem filterMap_rng_sumI :
    ∀ (l : List Int), entries01 l → ∀ (g : Int → Int),
      (((rng l.length).filterMap
        (fun c => if getI l c ≠ 0 then some (g c) else none)).length : Int) = sumI l := by
  intro l
  induction l with
  | nil => intro _ g; rfl
  | cons x xs ih =>
    intro h01 g
    have IH := ih (fun y hy => h01 y (List.mem_cons_of_mem x hy)) (fun c => g (c + 1))
    have hshift : ∀ c ∈ rng xs.length,
        ((fun c => if getI (x :: xs) c ≠ 0 then some (g c) else none) ∘ fun v => v + 1) c
          = (fun c => if getI xs c ≠ 0 then some (g (c + 1)) else none) c := by
      intro c hc
      have hc0 : 0 ≤ c := ((mem_rng _ _).mp hc).1
      simp only [Function.comp]
      rw [getI_cons_succ x xs c hc0]
    rw [List.length_cons, rng_succ, List.filterMap_cons, List.filterMap_map,
      List.filterMap_congr hshift]
    rcases h01 x (List.mem_cons_self x xs) with hx | hx <;>
      simp only [getI_cons_zero, hx, sumI] <;> norm_num at IH ⊢ <;> omega

theorem mem_dealLegal (s : GameState) (a : Int) (h : ¬s.cardFaceUpPosition = -1) :
    a ∈ dealLegalActions s ↔
      ∃ c : Int, 0 ≤ c ∧ c < 54 ∧ getI s.dealerDeck c ≠ 0 ∧
        a = c + kDealingActionBase := by
  unfold dealLegalActions
  rw [if_neg h]
  constructor
  · intro hm
    rcases List.mem_filterMap.mp hm with ⟨c, hc, he⟩
    rcases (mem_rng _ _).mp hc with ⟨h0, h1⟩
    split at he
    · cases he
      exact ⟨c, h0, by exact_mod_cast h1, by assumption, rfl⟩
    · cases he
  · rintro ⟨c, h0, h1, hne, rfl⟩
    refine List.mem_filterMap.mpr ⟨c, (mem_rng _ _).mpr ⟨h0, by exact_mod_cast h1⟩, ?_⟩
    rw [if_pos hne]

theorem scoreUp_projections (s : GameState) :
    (scoreUp s).phase = s.phase ∧ (scoreUp s).holds = s.holds ∧
    (scoreUp s).dealerDeck = s.dealerDeck ∧ (scoreUp s).playedDeck = s.playedDeck ∧
    (scoreUp s).cardsLeftOver = s.cardsLeftOver ∧ (scoreUp s).dizhu = s.dizhu ∧
    (scoreUp s).tricks = s.tricks ∧ (scoreUp s).currentPlayer = s.currentPlayer ∧
    (scoreUp s).finalWinner = s.finalWinner := by
  unfold scoreUp
  split <;> exact ⟨rfl, rfl, rfl, rfl, rfl, rfl, rfl, rfl, rfl⟩

theorem Inv_init : Inv initState := by
  refine ⟨⟨rfl, ?_, rfl, rfl⟩, ?_, ?_, ?_, ?_, ?_⟩
  · intro h hm
    rw [List.eq_of_mem_replicate hm]
    rfl
  · intro r hr
    cases hr
  · intro _
    refine ⟨rfl, rfl, ?_, rfl, rfl, rfl, rfl, ?_⟩
    · intro x hx
      right
      exact List.eq_of_mem_replicate hx
    · have hc : initState.cardFaceUpPosition = -1 := rfl
      rw [if_pos hc]
      exact ⟨rfl, rfl, rfl⟩
  · intro h
    exact Phase.noConfusion h
  · intro h
    exact Phase.noConfusion h
  · intro h
    exact Phase.noConfusion h

theorem mem_leftover_decomp (l : List Int) (r : Int)
    (hm : r ∈ (rng 54).filterMap (fun c =>
      if getI l c ≠ 0 then some (cardToRank c) else none)) :
    0 ≤ r ∧ r < 15 := by
  rcases List.mem_filterMap.mp hm with ⟨c, hc, he⟩
  rcases (mem_rng _ _).mp hc with ⟨h0, h1⟩
  split at he
  · cases he
    exact cardToRank_bounds c h0 (by exact_mod_cast h1)
  · cases he

theorem deal_step_inv {s s2 : GameState} {a : Int} (hinv : Inv s)
    (hph : s.phase = Phase.deal)
    (hmem : a ∈ legalActions s) (happ : applyAction s a = some s2) :
    Inv s2 := by
  obtain ⟨⟨hh3, hrows, hd54, hp15⟩, hlovr, hdeal, _, _, _⟩ := hinv
  obtain ⟨hclo, hpld, h01, hwb, hdz, htr, htp, hposif⟩ := hdeal hph
  have hla : legalActions s = dealLegalActions s := by
    unfold legalActions
    rw [hph]
  rw [hla] at hmem
  have happ2 : (applyDealAction s a).map
      (fun t => { t with history := s.history ++ [(currentPlayerId s, a)] }) = some s2 := by
    rw [← happ]
    unfold applyAction doApplyAction
    rw [hph]
  by_cases hfp : s.cardFaceUpPosition = -1
  · -- the face-up-slot choice: record the position, deal nothing
    obtain ⟨hhist, hdeck, hholds⟩ : s.history = [] ∧
        s.dealerDeck = List.replicate 54 1 ∧
        s.holds = List.replicate 3 (List.replicate 15 0) := by
      have := hposif
      rw [if_pos hfp] at this
      exact this
    unfold dealLegalActions at hmem
    rw [if_pos hfp] at hmem
    obtain ⟨ha0, ha51⟩ := (mem_rng _ _).mp hmem
    unfold applyDealAction at happ2
    rw [if_pos hfp, Option.map_some'] at happ2
    rw [Option.some_inj] at happ2
    subst happ2
    refine ⟨⟨hh3, hrows, hd54, hp15⟩, ?_, ?_, ?_, ?_, ?_⟩
    · intro r hr
      rw [hclo] at hr
      cases hr
    · intro _
      refine ⟨hclo, hpld, h01, hwb, hdz, htr, htp, ?_⟩
      rw [if_neg (by omega : ¬a = -1)]
      rw [hhist]
      refine ⟨ha0, ha51, by simp, by simp, by simp, ?_, ?_, ?_⟩
      · unfold poolSum
        rw [hdeck, sumI_replicate_one]
        simp
      · unfold handsSum
        rw [hholds]
        simp
        rfl
      · intro hcon
        simp at hcon
        omega
    · intro h
      rw [hph] at h
      exact Phase.noConfusion h
    · intro h
      rw [hph] at h
      exact Phase.noConfusion h
    · intro h
      rw [hph] at h
      exact Phase.noConfusion h
  · -- dealing one card
    obtain ⟨c, hc0, hc54, hcne, rfl⟩ := (mem_dealLegal s a hfp).mp hmem
    obtain ⟨hp0, hp51, hk1, hk51, hhead, hpool, hhands, hfpset⟩ := by
      have := hposif
      rw [if_neg hfp] at this
      exact this
    have hcard : c + kDealingActionBase - kDealingActionBase = c := by ring
    have hrank := cardToRank_bounds c hc0 hc54
    have hent1 : getI s.dealerDeck c = 1 := by
      rcases h01 _ (getI_mem hc0 (by rw [hd54]; omega)) with h | h
      · exact absurd h hcne
      · exact h
    unfold applyDealAction at happ2
    rw [if_neg hfp] at happ2
    dsimp only at happ2
    rw [hhead, hcard] at happ2
    set k : Int := (s.history.length : Int) with hk
    set p : Int := (k - 1) % 3 with hp
    have hk1' : (1 : Int) ≤ k := by rw [hk]; exact_mod_cast hk1
    have hk51' : k ≤ 51 := by rw [hk]; exact_mod_cast hk51
    have hp03 : 0 ≤ p ∧ p < 3 := ⟨Int.emod_nonneg _ (by norm_num),
      Int.emod_lt_of_pos _ (by norm_num)⟩
    have hpN : p.toNat < 3 := by omega
    set s1 : GameState := if k - 1 = s.cardFaceUpPosition then
        { s with firstPlayer := p, cardRankFaceUp := cardToRank c }
      else s with hs1
    have hs1deck : s1.dealerDeck = s.dealerDeck := by
      rw [hs1]
      split <;> rfl
    have hs1holds : s1.holds = s.holds := by
      rw [hs1]
      split <;> rfl
    have hs1flds : s1.phase = s.phase ∧ s1.playedDeck = s.playedDeck ∧
        s1.cardsLeftOver = s.cardsLeftOver ∧ s1.winningBid = s.winningBid ∧
        s1.dizhu = s.dizhu ∧ s1.tricks = s.tricks ∧ s1.tricksPlayed = s.tricksPlayed ∧
        s1.cardFaceUpPosition = s.cardFaceUpPosition ∧ s1.history = s.history := by
      rw [hs1]
      split <;> exact ⟨rfl, rfl, rfl, rfl, rfl, rfl, rfl, rfl, rfl⟩
    obtain ⟨hf1, hf2, hf3, hf4, hf5, hf6, hf7, hf8, hf9⟩ := hs1flds
    have hdeckS : sumI (updI s1.dealerDeck c (fun x => x - 1)) = 54 - k := by
      rw [hs1deck, sumI_updI _ _ _ hc0 (by rw [hd54]; omega), hent1]
      have hps : sumI s.dealerDeck = 54 - (k - 1) := hpool
      omega
    have hdeckE : entries01 (updI s1.dealerDeck c (fun x => x - 1)) := by
      rw [hs1deck]
      intro x hx
      unfold updI setI at hx
      rw [if_pos hc0] at hx
      rcases List.mem_or_eq_of_mem_set hx with h | h
      · exact h01 x h
      · left
        rw [h, hent1]
        ring
    have hdeckL : (updI s1.dealerDeck c (fun x => x - 1)).length = 54 := by
      rw [length_updI, hs1deck, hd54]
    have hrowM : getH s.holds p ∈ s.holds := getH_mem hp03.1 (by rw [hh3]; exact hpN)
    have hrowL : (getH s.holds p).length = 15 := hrows _ hrowM
    have hholdsS :
        handsTotal (updH s1.holds p (fun h => updI h (cardToRank c) (fun x => x + 1))) = k := by
      rw [hs1holds, handsTotal_updH _ _ _ hp03.1 (by rw [hh3]; exact hpN),
        sumI_updI _ _ _ hrank.1 (by rw [hrowL]; omega)]
      have hhs : handsTotal s.holds = k - 1 := hhands
      omega
    have hholdsL :
        (updH s1.holds p (fun h => updI h (cardToRank c) (fun x => x + 1))).length = 3 := by
      rw [length_updH, hs1holds, hh3]
    have hholdsR : ∀ h ∈ updH s1.holds p (fun h => updI h (cardToRank c) (fun x => x + 1)),
        h.length = 15 := by
      rw [hs1holds]
      exact updH_row_lengths _ _ _ hp03.1 (by rw [hh3]; exact hpN) hrows
        (by rw [length_updI]; exact hrowL)
    by_cases hk54 : k = (kNumCards : Int) - (kNumCardsLeftOver : Int)
    · -- the 51st card: transition to the auction
      have hk51eq : k = 51 := by
        unfold kNumCards kNumCardsLeftOver at hk54
        omega
      have hfpv : validPlayer s1.firstPlayer := by
        by_cases bfp : k - 1 = s.cardFaceUpPosition
        · rw [hs1, if_pos bfp]
          show validPlayer p
          rw [hp]
          exact validPlayer_emod3 _ (by omega)
        · rw [hs1, if_neg bfp]
          rw [hfpset (by omega)]
          exact validPlayer_emod3 _ hp0
      have hchk : 0 ≤ s1.firstPlayer ∧ s1.firstPlayer ≤ kNumPlayers := by
        rcases hfpv with h | h | h <;> rw [h] <;>
          exact ⟨by norm_num, by norm_num [kNumPlayers]⟩
      rw [if_pos hk54, if_pos hchk, Option.map_some', Option.some_inj] at happ2
      subst happ2
      refine ⟨⟨hholdsL, hholdsR, hdeckL, by dsimp only; rw [hf2]; exact hp15⟩,
        ?_, ?_, ?_, ?_, ?_⟩
      · intro r hr
        dsimp only at hr
        exact mem_leftover_decomp _ r hr
      · intro h
        exact Phase.noConfusion h
      · intro _
        have hlen3 := filterMap_rng_sumI (updI s1.dealerDeck c (fun x => x - 1)) hdeckE cardToRank
        rw [hdeckL] at hlen3
        rw [hdeckS, hk51eq] at hlen3
        refine ⟨?_, ?_, by dsimp only; rw [hf2]; exact hpld, hdeckE, ?_, hfpv,
          by dsimp only; rw [hf6]; exact htr,
          by dsimp only; rw [hf7]; exact htp,
          Or.inl ⟨by dsimp only; rw [hf4]; exact hwb, by dsimp only; rw [hf5]; exact hdz⟩, ?_⟩
        · unfold poolSum
          dsimp only
          rw [hdeckS, hk51eq]
          norm_num
        · unfold handsSum
          dsimp only
          rw [hholdsS, hk51eq]
        · dsimp only
          omega
        · dsimp only
          rw [hf4, hwb]
          intro hcon
          omega
      · intro h
        exact Phase.noConfusion h
      · intro h
        exact Phase.noConfusion h
    · -- an ordinary deal step
      rw [if_neg hk54, Option.map_some', Option.some_inj] at happ2
      subst happ2
      have hkne51 : k ≠ 51 := by
        unfold kNumCards kNumCardsLeftOver at hk54
        omega
      have hhne : s.history ≠ [] := by
        intro hcon
        rw [hcon] at hk1
        simp at hk1
      refine ⟨⟨hholdsL, hholdsR, hdeckL, by dsimp only; rw [hf2]; exact hp15⟩,
        ?_, ?_, ?_, ?_, ?_⟩
      · intro r hr
        dsimp only at hr
        rw [hf3, hclo] at hr
        cases hr
      · intro _
        refine ⟨by dsimp only; rw [hf3]; exact hclo,
          by dsimp only; rw [hf2]; exact hpld, hdeckE,
          by dsimp only; rw [hf4]; exact hwb,
          by dsimp only; rw [hf5]; exact hdz,
          by dsimp only; rw [hf6]; exact htr,
          by dsimp only; rw [hf7]; exact htp, ?_⟩
        dsimp only
        rw [hf8, if_neg hfp, List.length_append]
        refine ⟨hp0, hp51, by omega, by simp; omega, ?_, ?_, ?_, ?_⟩
        · rw [headD_append _ _ _ hhne, hhead]
        · unfold poolSum
          dsimp only
          rw [hdeckS]
          simp only [List.length_singleton]
          push_cast
          omega
        · unfold handsSum
          dsimp only
          rw [hholdsS]
          simp only [List.length_singleton]
          push_cast
          omega
        · intro hcon
          simp only [List.length_singleton] at hcon
          push_cast at hcon
          by_cases bfp : k - 1 = s.cardFaceUpPosition
          · rw [hs1, if_pos bfp]
            show p = s.cardFaceUpPosition % 3
            rw [hp, bfp]
          · rw [hs1, if_neg bfp]
            exact hfpset (by omega)
      · intro h
        dsimp only at h
        rw [hf1, hph] at h
        exact Phase.noConfusion h
      · intro h
        dsimp only at h
        rw [hf1, hph] at h
        exact Phase.noConfusion h
      · intro h
        dsimp only at h
        rw [hf1, hph] at h
        exact Phase.noConfusion h

theorem pass_gameOver_eq (s : GameState) (h3 : s.numPasses + 1 = 3) :
    applyBiddingAction s kPass =
      { s with
          numPasses := s.numPasses + 1,
          phase := Phase.gameOver,
          currentPlayer := (s.currentPlayer + 1) % 3 } := by
  unfold applyBiddingAction kNumPlayers kNumBids
  have e1 : (((s.numPasses + 1 : Nat)) : Int) = 3 := by omega
  have e2 : ¬((((s.numPasses + 1 : Nat)) : Int) = 3 - 1) := by omega
  simp only [if_pos rfl, ite_true, e1, e2, if_neg, ite_false, false_and,
    and_false, not_false_iff, or_false, if_false, not_true, true_and,
    false_or, and_true]
  all_goals rfl

theorem pass_finalize_eq (s : GameState) (h2 : s.numPasses + 1 = 2)
    (hwb : 0 < s.winningBid) :
    applyBiddingAction s kPass =
      { s with
          numPasses := 0,
          holds := addLeftovers s.holds s.dizhu s.cardsLeftOver,
          phase := Phase.play,
          currentPlayer := s.dizhu,
          newTrickBegin := true,
          tricks := s.tricks ++ [Trick.mkLA s.dizhu kInvalidAction] } := by
  unfold applyBiddingAction kNumPlayers kNumBids
  have e1 : ¬((((s.numPasses + 1 : Nat)) : Int) = 3) := by omega
  have e2 : (((s.numPasses + 1 : Nat)) : Int) = 3 - 1 := by omega
  simp only [if_pos rfl, ite_true, e1, e2, if_neg, ite_false, false_and,
    and_false, not_false_iff, or_false, if_false, not_true, true_and,
    false_or, and_true, hwb]
  all_goals rfl

theorem bid_final_eq (s : GameState) (a : Int) (hne : ¬a = kPass)
    (h3 : a - kBiddingActionBase = kNumBids) :
    applyBiddingAction s a =
      { s with
          numPasses := 0,
          dizhu := s.currentPlayer,
          winningBid := a - kBiddingActionBase,
          holds := addLeftovers s.holds s.currentPlayer s.cardsLeftOver,
          phase := Phase.play,
          currentPlayer := s.currentPlayer,
          newTrickBegin := true,
          tricks := s.tricks ++ [Trick.mkLA s.currentPlayer kInvalidAction] } := by
  unfold applyBiddingAction
  simp only [hne, ite_false, if_neg, not_false_iff, false_and, false_or,
    not_false_eq_true, true_and, h3, and_true, if_pos, ite_true]
  all_goals rfl

theorem bid_nonfinal_eq (s : GameState) (a : Int) (hne : ¬a = kPass)
    (h3 : ¬(a - kBiddingActionBase = kNumBids)) :
    applyBiddingAction s a =
      { s with
          numPasses := 0,
          dizhu := s.currentPlayer,
          winningBid := a - kBiddingActionBase,
          currentPlayer := (s.currentPlayer + 1) % 3 } := by
  unfold applyBiddingAction
  simp only [hne, ite_false, if_neg, not_false_iff, false_and, false_or,
    not_false_eq_true, true_and, h3, and_false, if_false, and_true, or_false]
  all_goals rfl

theorem auction_step_inv {s s2 : GameState} {a : Int} (hinv : Inv s)
    (hph : s.phase = Phase.auction)
    (hmem : a ∈ legalActions s) (happ : applyAction s a = some s2) :
    Inv s2 := by
  obtain ⟨⟨hh3, hrows, hd54, hp15⟩, hlovr, _, hauc, _, _⟩ := hinv
  obtain ⟨hpool, hhands, hpld, h01, hlol, hcur, htr, htp, hwbd, hnp⟩ := hauc hph
  have hla : legalActions s = biddingLegalActions s := by
    unfold legalActions
    rw [hph]
  rw [hla, mem_biddingLegalActions] at hmem
  unfold applyAction doApplyAction at happ
  rw [hph, Option.map_some', Option.some_inj] at happ
  subst happ
  rcases hmem with rfl | ⟨v, hv1, hv2, rfl⟩
  · -- a pass
    by_cases h3 : s.numPasses + 1 = 3
    · -- three passes: game over, nobody ever bid
      have hwb0 : s.winningBid = 0 := by
        rcases hwbd with ⟨h, -⟩ | ⟨h, -⟩
        · exact h
        · exact absurd (hnp (by omega)) (by omega)
      have hdz0 : s.dizhu = kInvalidPlayer := by
        rcases hwbd with ⟨-, h⟩ | ⟨h, -⟩
        · exact h
        · omega
      rw [pass_gameOver_eq s h3]
      refine ⟨⟨hh3, hrows, hd54, hp15⟩, hlovr, ?_, ?_, ?_, ?_⟩
      · intro h
        exact Phase.noConfusion h
      · intro h
        exact Phase.noConfusion h
      · intro h
        exact Phase.noConfusion h
      · intro _
        refine ⟨hpool, hlol, Or.inl ⟨hdz0, hhands, ?_⟩⟩
        unfold playedSum
        rw [hpld]
        exact sumI_replicate_zero 15
    · by_cases h2 : s.numPasses + 1 = 2 ∧ 0 < s.winningBid
      · -- two passes over a standing bid: finalize
        have hdzv : validPlayer s.dizhu := by
          rcases hwbd with ⟨h, -⟩ | ⟨-, -, h⟩
          · omega
          · exact h
        obtain ⟨hdz0, hdzN⟩ := validPlayer_bounds hdzv
        rw [pass_finalize_eq s h2.1 h2.2]
        refine ⟨⟨?_, ?_, hd54, hp15⟩, hlovr, ?_, ?_, ?_, ?_⟩
        · show (addLeftovers s.holds s.dizhu s.cardsLeftOver).length = 3
          rw [addLeftovers_length, hh3]
        · show ∀ h ∈ addLeftovers s.holds s.dizhu s.cardsLeftOver, h.length = 15
          exact addLeftovers_row_lengths _ _ _ hdz0 (by rw [hh3]; exact hdzN) hrows
        · intro h
          exact Phase.noConfusion h
        · intro h
          exact Phase.noConfusion h
        · intro _
          refine ⟨hpool, ?_, hlol, hdzv, hdzv, ?_, fun _ => rfl, ?_⟩
          · show handsTotal (addLeftovers s.holds s.dizhu s.cardsLeftOver) +
              playedSum s = 54
            rw [handsTotal_addLeftovers _ _ _ hdz0 (by rw [hh3]; exact hdzN) hrows hlovr,
              hlol]
            have : playedSum s = 0 := by
              unfold playedSum
              rw [hpld]
              exact sumI_replicate_zero 15
            unfold handsSum at hhands
            omega
          · show (s.tricks ++ [Trick.mkLA s.dizhu kInvalidAction]).length =
              s.tricksPlayed + 1
            rw [htr, htp]
            rfl
          · intro h
            exact absurd h (by simp)
        · intro h
          exact Phase.noConfusion h
      · -- a non-finalizing pass
        rw [pass_nonfinal_eq s h3 h2]
        refine ⟨⟨hh3, hrows, hd54, hp15⟩, hlovr, ?_, ?_, ?_, ?_⟩
        · intro h
          have h4 : s.phase = Phase.deal := h
          rw [hph] at h4
          exact Phase.noConfusion h4
        · intro _
          refine ⟨hpool, hhands, hpld, h01, hlol, validPlayer_succ hcur, htr, htp,
            hwbd, ?_⟩
          show 0 < s.winningBid → s.numPasses + 1 ≤ 1
          intro hwbp
          have hle := hnp hwbp
          have hne2 : ¬(s.numPasses + 1 = 2) := fun hc => h2 ⟨hc, hwbp⟩
          omega
        · intro h
          have h4 : s.phase = Phase.play := h
          rw [hph] at h4
          exact Phase.noConfusion h4
        · intro h
          have h4 : s.phase = Phase.gameOver := h
          rw [hph] at h4
          exact Phase.noConfusion h4
  · -- a bid of v
    have hne : ¬(kBiddingActionBase + v = kPass) := by
      unfold kBiddingActionBase kPass
      rcases hwbd with ⟨h, -⟩ | ⟨h, -⟩ <;> omega
    have hsub : kBiddingActionBase + v - kBiddingActionBase = v := by ring
    have hv1' : 1 ≤ v := by
      rcases hwbd with ⟨h, -⟩ | ⟨h, -⟩ <;> omega
    obtain ⟨hc0, hcN⟩ := validPlayer_bounds hcur
    by_cases h3 : kBiddingActionBase + v - kBiddingActionBase = kNumBids
    · -- a maximal bid finalizes at once
      rw [bid_final_eq s _ hne h3]
      refine ⟨⟨?_, ?_, hd54, hp15⟩, hlovr, ?_, ?_, ?_, ?_⟩
      · show (addLeftovers s.holds s.currentPlayer s.cardsLeftOver).length = 3
        rw [addLeftovers_length, hh3]
      · show ∀ h ∈ addLeftovers s.holds s.currentPlayer s.cardsLeftOver, h.length = 15
        exact addLeftovers_row_lengths _ _ _ hc0 (by rw [hh3]; exact hcN) hrows
      · intro h
        exact Phase.noConfusion h
      · intro h
        exact Phase.noConfusion h
      · intro _
        refine ⟨hpool, ?_, hlol, hcur, hcur, ?_, fun _ => rfl, ?_⟩
        · show handsTotal (addLeftovers s.holds s.currentPlayer s.cardsLeftOver) +
            playedSum s = 54
          rw [handsTotal_addLeftovers _ _ _ hc0 (by rw [hh3]; exact hcN) hrows hlovr,
            hlol]
          have : playedSum s = 0 := by
            unfold playedSum
            rw [hpld]
            exact sumI_replicate_zero 15
          unfold handsSum at hhands
          omega
        · show (s.tricks ++ [Trick.mkLA s.currentPlayer kInvalidAction]).length =
            s.tricksPlayed + 1
          rw [htr, htp]
          rfl
        · intro h
          exact absurd h (by simp)
      · intro h
        exact Phase.noConfusion h
    · -- a non-maximal bid
      rw [bid_nonfinal_eq s _ hne h3]
      refine ⟨⟨hh3, hrows, hd54, hp15⟩, hlovr, ?_, ?_, ?_, ?_⟩
      · intro h
        have h4 : s.phase = Phase.deal := h
        rw [hph] at h4
        exact Phase.noConfusion h4
      · intro _
        refine ⟨hpool, hhands, hpld, h01, hlol, validPlayer_succ hcur, htr, htp,
          Or.inr ⟨?_, ?_, hcur⟩, ?_⟩
        · show 1 ≤ kBiddingActionBase + v - kBiddingActionBase
          rw [hsub]
          omega
        · show kBiddingActionBase + v - kBiddingActionBase ≤ kNumBids
          rw [hsub]
          exact hv2
        · intro _
          show (0 : Nat) ≤ 1
          omega
      · intro h
        have h4 : s.phase = Phase.play := h
        rw [hph] at h4
        exact Phase.noConfusion h4
      · intro h
        have h4 : s.phase = Phase.gameOver := h
        rw [hph] at h4
        exact Phase.noConfusion h4

theorem getD_set_self {α : Type} (l : List α) (n : Nat) (v d : α)
    (h : n < l.length) : (l.set n v).getD n d = v := by
  simp [List.getD, List.getElem?_set_self, h]

theorem play_step_inv {s s2 : GameState} {a : Int} (hinv : Inv s)
    (hph : s.phase = Phase.play)
    (hmem : a ∈ legalActions s) (happ : applyAction s a = some s2) :
    Inv s2 := by
  obtain ⟨⟨hh3, hrows, hd54, hp15⟩, hlovr, _, _, hplay, _⟩ := hinv
  obtain ⟨hpool, hsum, hlol, hcur, hdzv, htlen, hntbT, hntbF⟩ := hplay hph
  have hla : legalActions s = playLegalActions s := by
    unfold legalActions
    rw [hph]
  rw [hla] at hmem
  unfold playLegalActions at hmem
  rw [mem_sortOrd, List.mem_append] at hmem
  unfold applyAction doApplyAction at happ
  rw [hph] at happ
  by_cases hpass : a = kPass
  · -- a pass
    subst hpass
    have hntb : s.newTrickBegin = false := by
      rcases hmem with hm | hm
      · cases hb : s.newTrickBegin
        · rfl
        · rw [hb] at hm
          cases hm
      · have := searchForLegalActions_lb _ _ _ hm
        norm_num [kPass, kPlayActionBase] at this
    unfold applyPlayAction at happ
    simp only [if_pos (rfl : kPass = kPass), if_true] at happ
    by_cases hcl : (((s.numPasses + 1 : Nat)) : Int) = kNumPlayers - 1
    · -- the trick closes
      rw [if_pos hcl, Option.map_some', Option.some_inj] at happ
      subst happ
      refine ⟨⟨hh3, hrows, hd54, hp15⟩, hlovr, ?_, ?_, ?_, ?_⟩
      · intro h
        have h4 : s.phase = Phase.deal := h
        rw [hph] at h4
        exact Phase.noConfusion h4
      · intro h
        have h4 : s.phase = Phase.auction := h
        rw [hph] at h4
        exact Phase.noConfusion h4
      · intro _
        refine ⟨hpool, hsum, hlol, ?_, hdzv, ?_, fun _ => rfl, ?_⟩
        · show validPlayer (currentTrick
            { s with numPlayed := s.numPlayed + 1, numPasses := s.numPasses + 1 }).winningPlayer
          exact hntbF hntb
        · show (s.tricks ++ [defaultTrick]).length = s.tricksPlayed + 1 + 1
          rw [List.length_append, htlen]
          rfl
        · intro h
          exact absurd h (by simp)
      · intro h
        have h4 : s.phase = Phase.gameOver := h
        rw [hph] at h4
        exact Phase.noConfusion h4
    · -- the pass does not close the trick
      rw [if_neg hcl, Option.map_some', Option.some_inj] at happ
      subst happ
      refine ⟨⟨hh3, hrows, hd54, hp15⟩, hlovr, ?_, ?_, ?_, ?_⟩
      · intro h
        have h4 : s.phase = Phase.deal := h
        rw [hph] at h4
        exact Phase.noConfusion h4
      · intro h
        have h4 : s.phase = Phase.auction := h
        rw [hph] at h4
        exact Phase.noConfusion h4
      · intro _
        refine ⟨hpool, hsum, hlol, validPlayer_succ hcur, hdzv, htlen, ?_, ?_⟩
        · show s.newTrickBegin = true → s.numPasses + 1 = 0
          rw [hntb]
          intro h
          exact Bool.noConfusion h
        · intro _
          exact hntbF hntb
      · intro h
        have h4 : s.phase = Phase.gameOver := h
        rw [hph] at h4
        exact Phase.noConfusion h4
  · -- a real play
    have hsearch : a ∈ searchForLegalActions (getH s.holds s.currentPlayer)
        (currentTrick s).winningAction := by
      rcases hmem with hm | hm
      · cases hb : s.newTrickBegin
        · rw [hb] at hm
          simp at hm
          exact absurd hm hpass
        · rw [hb] at hm
          cases hm
      · exact hm
    have hcN := validPlayer_bounds hcur
    have hhand : (getH s.holds s.currentPlayer).length = 15 :=
      hrows _ (getH_mem hcN.1 (by rw [hh3]; exact hcN.2))
    have hused : (actionToHand a).length = 15 := actionToHand_length a
    unfold applyPlayAction afterPlayHand at happ
    simp only [if_neg hpass] at happ
    by_cases hchk : ((List.range 15).all fun r =>
        decide (getI (actionToHand a) (r : Int) ≤
          getI (getH s.holds s.currentPlayer) (r : Int))) = true
    · rw [if_pos hchk] at happ
      dsimp only at happ
      -- facts about the updated hands and ledger
      have hnewlen : (List.zipWith (fun x y => x - y) (getH s.holds s.currentPlayer)
          (actionToHand a)).length = 15 := by
        rw [List.length_zipWith, hhand, hused]
        omega
      have hhl : (setH s.holds s.currentPlayer
          (List.zipWith (fun x y => x - y) (getH s.holds s.currentPlayer)
            (actionToHand a))).length = 3 := by
        rw [length_setH, hh3]
      have hhr : ∀ h ∈ setH s.holds s.currentPlayer
          (List.zipWith (fun x y => x - y) (getH s.holds s.currentPlayer)
            (actionToHand a)), h.length = 15 := by
        intro h hm2
        unfold setH at hm2
        rw [if_pos hcN.1] at hm2
        rcases List.mem_or_eq_of_mem_set hm2 with h5 | h5
        · exact hrows h h5
        · rw [h5]
          exact hnewlen
      have hplen : (List.zipWith (fun x y => x + y) s.playedDeck
          (actionToHand a)).length = 15 := by
        rw [List.length_zipWith, hp15, hused]
        omega
      have hsum2 : handsTotal (setH s.holds s.currentPlayer
            (List.zipWith (fun x y => x - y) (getH s.holds s.currentPlayer)
              (actionToHand a))) +
          sumI (List.zipWith (fun x y => x + y) s.playedDeck (actionToHand a)) = 54 := by
        rw [handsTotal_setH _ _ _ hcN.1 (by rw [hh3]; exact hcN.2),
          sumI_zipWith_sub _ _ (by rw [hhand, hused]),
          sumI_zipWith_add _ _ (by rw [hp15, hused])]
        unfold handsSum playedSum at hsum
        omega
      by_cases hflag : ((List.zipWith (fun x y => x - y) (getH s.holds s.currentPlayer)
          (actionToHand a)).all fun x => x == 0) = true
      · -- the hand is empty: the game ends and is scored
        rw [if_pos hflag, Option.map_some', Option.some_inj] at happ
        subst happ
        obtain ⟨hsc1, hsc2, hsc3, hsc4, hsc5, hsc6, hsc7, hsc8, hsc9⟩ :=
          scoreUp_projections { s with
            numPlayed := s.numPlayed + 1,
            numPasses := 0,
            bombsPlayed := if kBombActionBase ≤ a then s.bombsPlayed + 1 else s.bombsPlayed,
            playersHandsPlayed := updI s.playersHandsPlayed s.currentPlayer (fun x => x + 1),
            newTrickBegin := false,
            tricks := s.tricks.set s.tricksPlayed
              ((currentTrick { s with
                numPlayed := s.numPlayed + 1,
                numPasses := 0 }).play s.currentPlayer a),
            holds := setH s.holds s.currentPlayer
              (List.zipWith (fun x y => x - y) (getH s.holds s.currentPlayer)
                (actionToHand a)),
            playedDeck := List.zipWith (fun x y => x + y) s.playedDeck (actionToHand a),
            finalWinner := s.currentPlayer }
        refine ⟨⟨?_, ?_, ?_, ?_⟩, ?_, ?_, ?_, ?_, ?_⟩
        · rw [hsc2]
          exact hhl
        · rw [hsc2]
          exact hhr
        · rw [hsc3]
          exact hd54
        · rw [hsc4]
          exact hplen
        · intro r hr
          rw [hsc5] at hr
          exact hlovr r hr
        · intro h
          exact Phase.noConfusion h
        · intro h
          exact Phase.noConfusion h
        · intro h
          exact Phase.noConfusion h
        · intro _
          refine ⟨?_, ?_, Or.inr ⟨?_, ?_⟩⟩
          · unfold poolSum
            rw [hsc3]
            exact hpool
          · rw [hsc5]
            exact hlol
          · rw [hsc6]
            exact hdzv
          · unfold handsSum playedSum
            rw [hsc2, hsc4]
            exact hsum2
      · -- the play stands, the turn advances
        rw [if_neg hflag, Option.map_some', Option.some_inj] at happ
        subst happ
        refine ⟨⟨hhl, hhr, hd54, hplen⟩, hlovr, ?_, ?_, ?_, ?_⟩
        · intro h
          have h4 : s.phase = Phase.deal := h
          rw [hph] at h4
          exact Phase.noConfusion h4
        · intro h
          have h4 : s.phase = Phase.auction := h
          rw [hph] at h4
          exact Phase.noConfusion h4
        · intro _
          refine ⟨hpool, hsum2, hlol, validPlayer_succ hcur, hdzv, ?_, ?_, ?_⟩
          · show (s.tricks.set s.tricksPlayed _).length = s.tricksPlayed + 1
            rw [List.length_set, htlen]
          · intro h
            exact Bool.noConfusion h
          · intro _
            show validPlayer ((s.tricks.set s.tricksPlayed
              ((currentTrick { s with numPlayed := s.numPlayed + 1, numPasses := 0 }).play
                s.currentPlayer a)).getD s.tricksPlayed defaultTrick).winningPlayer
            rw [getD_set_self _ _ _ _ (by rw [htlen]; omega)]
            exact hcur
        · intro h
          have h4 : s.phase = Phase.gameOver := h
          rw [hph] at h4
          exact Phase.noConfusion h4
    · rw [if_neg hchk] at happ
      simp at happ

/-- One legal step from an invariant state lands in an invariant state. -/
theorem stepLegal_inv {s s2 : GameState} {a : Int} (hinv : Inv s)
    (hstep : stepLegal s a = some s2) : Inv s2 := by
  unfold stepLegal at hstep
  by_cases hmem : a ∈ legalActions s
  · rw [if_pos hmem] at hstep
    cases hph : s.phase
    · exact deal_step_inv hinv hph hmem hstep
    · exact auction_step_inv hinv hph hmem hstep
    · exact play_step_inv hinv hph hmem hstep
    · have hla : legalActions s = [] := by
        unfold legalActions
        rw [hph]
      rw [hla] at hmem
      cases hmem
  · rw [if_neg hmem] at hstep
    exact Option.noConfusion hstep

/-- Every reachable state satisfies the inductive invariant. -/
theorem reachable_inv {s : GameState} (h : Reachable s) : Inv s := by
  induction h with
  | init => exact Inv_init
  | step _ hstep ih => exact stepLegal_inv ih hstep

instance (s : GameState) : Decidable (transferred s) := by
  unfold transferred
  infer_instance

/-- C2 (amended): for every reachable state, pool + hands + played ledger
+ leftover-block size equals 54 during the deal, 57 from end-of-deal
(the pool never removes the leftover cards), and 60 once the leftover
block has been transferred to a landlord (the cards are then also in the
landlord's hand). -/
theorem claim_C2 (s : GameState) (h : Reachable s) :
    poolSum s + handsSum s + playedSum s + (s.cardsLeftOver.length : Int) =
      54 + (if s.phase = Phase.deal then 0 else 3) +
        (if transferred s then 3 else 0) := by
  obtain ⟨_, _, hdeal, hauc, hplayI, hover⟩ := reachable_inv h
  have hps : s.playedDeck = List.replicate 15 0 → playedSum s = 0 := by
    intro hp
    unfold playedSum
    rw [hp]
    exact sumI_replicate_zero 15
  cases hph : s.phase
  case deal =>
    obtain ⟨hclo, hpd, _, _, _, _, _, hrest⟩ := hdeal hph
    have hnt : ¬transferred s := by
      rintro (h1 | ⟨h1, _⟩) <;> (rw [hph] at h1; exact Phase.noConfusion h1)
    rw [if_pos rfl, if_neg hnt, hclo, hps hpd]
    by_cases hc : s.cardFaceUpPosition = -1
    · rw [if_pos hc] at hrest
      obtain ⟨_, hdd, hholds⟩ := hrest
      have h1 : poolSum s = 54 := by
        unfold poolSum
        rw [hdd]
        exact sumI_replicate_one 54
      have h2 : handsSum s = 0 := by
        unfold handsSum
        rw [hholds]
        rfl
      rw [h1, h2]
      rfl
    · rw [if_neg hc] at hrest
      obtain ⟨_, _, _, _, _, hpool, hhands, _⟩ := hrest
      rw [hpool, hhands]
      simp only [List.length_nil, Nat.cast_zero]
      omega
  case auction =>
    obtain ⟨hpool, hhands, hpd, _, hlen, _⟩ := hauc hph
    have hnt : ¬transferred s := by
      rintro (h1 | ⟨h1, _⟩) <;> (rw [hph] at h1; exact Phase.noConfusion h1)
    rw [if_neg (fun hx => Phase.noConfusion hx), if_neg hnt, hpool, hhands,
      hps hpd, hlen]
    rfl
  case play =>
    obtain ⟨hpool, hhands, hlen, _⟩ := hplayI hph
    have ht : transferred s := Or.inl hph
    rw [if_neg (fun hx => Phase.noConfusion hx), if_pos ht, hpool, hlen]
    omega
  case gameOver =>
    obtain ⟨hpool, hlen, hcases⟩ := hover hph
    rcases hcases with ⟨hdz, hhands, hpld⟩ | ⟨hdv, hhands⟩
    · have hnt : ¬transferred s := by
        rintro (h1 | ⟨_, h2⟩)
        · rw [hph] at h1
          exact Phase.noConfusion h1
        · exact h2 hdz
      rw [if_neg (fun hx => Phase.noConfusion hx), if_neg hnt, hpool, hhands,
        hpld, hlen]
      rfl
    · have hne : s.dizhu ≠ kInvalidPlayer := by
        have hb := validPlayer_bounds hdv
        unfold kInvalidPlayer
        omega
      have ht : transferred s := Or.inr ⟨hph, hne⟩
      rw [if_neg (fun hx => Phase.noConfusion hx), if_pos ht, hpool, hlen]
      omega

/-- Witness for C2 at the initial state. -/
theorem claim_C2_w :
    poolSum initState + handsSum initState + playedSum initState +
        (initState.cardsLeftOver.length : Int) =
      54 + (if initState.phase = Phase.deal then 0 else 3) +
        (if transferred initState then 3 else 0) :=
  claim_C2 initState Reachable.init

/-- C7 (amended): for every reachable state the leftover block is empty
through the deal and holds exactly `kNumCardsLeftOver` entries in every
later phase — it is never cleared, so it stays non-empty after the
auction concludes; and at the auction's finalization the block is added
in full to the landlord's hand (each rank's count grows by the block's
multiplicity of that rank) while every other hand is untouched and the
block itself is kept. -/
theorem claim_C7 (s : GameState) (h : Reachable s) :
    s.cardsLeftOver.length =
      (if s.phase = Phase.deal then 0 else kNumCardsLeftOver) ∧
    (s.phase = Phase.auction → s.numPasses + 1 = 2 → 0 < s.winningBid →
      (applyBiddingAction s kPass).phase = Phase.play ∧
      (applyBiddingAction s kPass).cardsLeftOver = s.cardsLeftOver ∧
      (∀ r : Int,
        getI (getH (applyBiddingAction s kPass).holds s.dizhu) r =
          getI (getH s.holds s.dizhu) r + (s.cardsLeftOver.count r : Int)) ∧
      (∀ q : Int, q ≠ s.dizhu →
        getH (applyBiddingAction s kPass).holds q = getH s.holds q)) := by
  obtain ⟨⟨hh3, hrows, _, _⟩, hlo, hdeal, hauc, hplayI, hover⟩ := reachable_inv h
  constructor
  · cases hph : s.phase
    case deal =>
      obtain ⟨hclo, _⟩ := hdeal hph
      rw [if_pos rfl, hclo]
      rfl
    case auction =>
      obtain ⟨_, _, _, _, hlen, _⟩ := hauc hph
      rw [if_neg (fun hx => Phase.noConfusion hx), hlen]
      rfl
    case play =>
      obtain ⟨_, _, hlen, _⟩ := hplayI hph
      rw [if_neg (fun hx => Phase.noConfusion hx), hlen]
      rfl
    case gameOver =>
      obtain ⟨_, hlen, _⟩ := hover hph
      rw [if_neg (fun hx => Phase.noConfusion hx), hlen]
      rfl
  · intro hph h2 hwb
    have hdv : validPlayer s.dizhu := by
      obtain ⟨_, _, _, _, _, _, _, _, hdisj, _⟩ := hauc hph
      rcases hdisj with ⟨hwb0, _⟩ | ⟨_, _, hdv⟩
      · omega
      · exact hdv
    obtain ⟨hd0, hdlt⟩ := validPlayer_bounds hdv
    rw [pass_finalize_eq s h2 hwb]
    refine ⟨rfl, rfl, ?_, ?_⟩
    · intro r
      exact getI_getH_addLeftovers s.cardsLeftOver s.holds s.dizhu r hd0
        (by rw [hh3]; exact hdlt) hrows hlo
    · intro q hq
      exact getH_addLeftovers_ne s.cardsLeftOver s.holds s.dizhu q
        (fun he => hq he.symm)

/-- Witness for C7 at the initial state (deal phase: empty block,
auction clause vacuous). -/
theorem claim_C7_w :
    initState.cardsLeftOver.length =
      (if initState.phase = Phase.deal then 0 else kNumCardsLeftOver) ∧
    (initState.phase = Phase.auction → initState.numPasses + 1 = 2 →
      0 < initState.winningBid →
      (applyBiddingAction initState kPass).phase = Phase.play ∧
      (applyBiddingAction initState kPass).cardsLeftOver =
        initState.cardsLeftOver ∧
      (∀ r : Int,
        getI (getH (applyBiddingAction initState kPass).holds initState.dizhu) r =
          getI (getH initState.holds initState.dizhu) r +
            (initState.cardsLeftOver.count r : Int)) ∧
      (∀ q : Int, q ≠ initState.dizhu →
        getH (applyBiddingAction initState kPass).holds q =
          getH initState.holds q)) :=
  claim_C7 initState Reachable.init

/-! ### Counterexamples on the scripted game -/

set_option maxRecDepth 10000

/-- C2 counterexample: in the reachable auction state right after the
deal, the pool still holds the 3 leftover cards (`ApplyDealAction`
copies their ranks into the leftover block without decrementing
`dealer_deck_`), so pool + hands + ledger + leftover-block size is
57, not the total card count 54. -/
theorem claim_C2_cex :
    (runTrace dealPart).map (fun s =>
      (s.phase, poolSum s + handsSum s + playedSum s + (s.cardsLeftOver.length : Int))) =
      some (Phase.auction, 57) ∧ (57 : Int) ≠ (kNumCards : Int) :=
  ⟨by rfl, by decide⟩

/-- C7 counterexample: in the reachable play state right after the
auction concluded with a landlord, `cards_left_over_` still has its 3
entries — the leftover list is never cleared, so the block is not
"empty again once the auction has concluded". -/
theorem claim_C7_cex :
    (runTrace aucPart).map (fun s => (s.phase, s.cardsLeftOver.length)) =
      some (Phase.play, 3) ∧ (3 : Nat) ≠ 0 :=
  ⟨by rfl, by decide⟩

/-- C6 counterexample: after the reachable trick close in the scripted
game, `current_player` is the trick winner (seat 1) but the freshly
opened trick's `leader` field is the invalid sentinel `-3`, not the
winner. -/
theorem claim_C6_cex :
    (runTrace closePart).map (fun s =>
      (s.phase, s.currentPlayer, s.tricksPlayed,
        (s.tricks.getD 0 defaultTrick).winningPlayer,
        (s.tricks.getD 1 defaultTrick).leader)) =
      some (Phase.play, 1, 1, 1, -3) ∧ (-3 : Int) ≠ 1 :=
  ⟨by rfl, by decide⟩

/-- C9 counterexample: in the reachable auction state after seat 0 bid
1, action 106 (`Bid 1`) is not in the legal set, yet applying it is
not fatal — it succeeds and mutates the state (the landlord changes
from seat 0 to seat 1). -/
theorem claim_C9_cex :
    (runTrace cNineTrace).map legalActions = some [105, 107, 108] ∧
    (106 : Int) ∉ ([105, 107, 108] : List Int) ∧
    (runTrace cNineTrace).map (fun s => s.dizhu) = some 0 ∧
    ((runTrace cNineTrace).bind (fun s => applyAction s 106)).map
      (fun s => (s.phase, s.winningBid, s.dizhu)) = some (Phase.auction, 1, 1) :=
  ⟨by rfl, by decide, by rfl, by rfl⟩

/-- C4 counterexample: in the scripted game the landlord (seat 0)
plays twice, both inside trick 0 — so the landlord "played in exactly
one trick total" — and farmer 1 plays, yet the settlement's
`is_spring` flag is false and the landlord pays only the undoubled
stake (returns (-2, 1, 1) instead of (-4, 2, 2)). -/
theorem claim_C4_cex :
    (runTrace fullGame).map (fun s =>
      (s.phase, s.dizhu, s.finalWinner, isSpring s.playersHandsPlayed s.dizhu,
        getI s.returns 0, getI s.returns 1, getI s.returns 2)) =
      some (Phase.gameOver, 0, 1, false, -2, 1, 1) ∧
    tricksOf fullGame 0 = [0] ∧
    playRecord fullGame 1 ≠ [] := by
  refine ⟨by rfl, by rfl, ?_⟩
  decide

end GITCG
